import Mathlib

/-!
Shallow embedding of the Temporal-based Terraform orchestrator
(configuration model and validator, per-workspace executor workflow,
parent orchestrator workflow, and the Terraform activity wrapper),
together with theorems about the embedded operations.

Conventions used throughout the embedding:
* Go `map[string]T` values are modelled as association lists
  (`List (String × T)`); a missing key behaves like Go's zero value.
  A `nil` map and an empty map are indistinguishable through lookups,
  which is the only way the source reads them.
* External effects (the terraform binary, the filesystem, signal
  delivery, child-workflow futures) are passed in explicitly as data,
  so each workflow/activity becomes a pure function of its inputs and
  of the responses of its environment.
* Unbounded Go recursion (the validator's DFS, the memoized depth
  computation, the transitive-dependency walk) is embedded with an
  explicit fuel parameter; theorems show the fuel bound chosen by the
  embedding is never exhausted in the situations the statements cover.
-/

namespace IaC

/-- JSON values, the payload type flowing through outputs, extra vars and
variable files (Go `interface{}` holding decoded JSON). Numbers are
modelled as integers; no claim performs numeric computation on them. -/
inductive JValue where
  | null : JValue
  | bool (b : Bool) : JValue
  | num (n : Int) : JValue
  | str (s : String) : JValue
  | arr (elems : List JValue) : JValue
  | obj (fields : List (String × JValue)) : JValue

/-- Association-list lookup, first binding wins (Go `m[k]` read). -/
def findKey {α : Type} : List (String × α) → String → Option α
  | [], _ => none
  | (k', v) :: rest, k => if k' = k then some v else findKey rest k

/-- Association-list insert/overwrite (Go `m[k] = v`). -/
def insertKey {α : Type} : List (String × α) → String → α → List (String × α)
  | [], k, v => [(k, v)]
  | (k', v') :: rest, k, v =>
    if k' = k then (k, v) :: rest else (k', v') :: insertKey rest k v

/-- Set-style insert into a name list (Go `m[name] = true` on a
`map[string]bool` used as a set). -/
def insertName (l : List String) (n : String) : List String :=
  if n ∈ l then l else l ++ [n]

/-- Whitespace recognized by Go `strings.TrimSpace` (the ASCII cases). -/
def isSpaceChar (c : Char) : Bool :=
  c = ' ' || c = '\t' || c = '\n' || c = '\r'

/-- Go `strings.TrimSpace`, over the character list so that it reduces
definitionally (the library `String.trim` does not). -/
def trimSpace (s : String) : String :=
  String.mk (((s.data.dropWhile isSpaceChar).reverse.dropWhile isSpaceChar).reverse)

/-- Go `filepath.IsAbs` on linux: the path starts with a slash. -/
def isAbs (p : String) : Bool :=
  match p.data with
  | [] => false
  | c :: _ => c = '/'

/-- Go `filepath.Join` of two components. The embedding does not model
path cleaning; all joins in the source are of clean components. -/
def joinPath (a b : String) : String := a ++ "/" ++ b

/-- Split a character list on a separator character. -/
def splitOnChar (sep : Char) : List Char → List (List Char)
  | [] => [[]]
  | c :: rest =>
    match splitOnChar sep rest with
    | [] => [[c]]
    | h :: t => if c = sep then [] :: h :: t else (c :: h) :: t

/-- Go `filepath.Base`: the last path component. -/
def baseName (p : String) : String :=
  String.mk ((splitOnChar '/' p.data).getLastD p.data)

/-- Go `filepath.Ext`: the suffix from the final dot, "" if none. -/
def extOf (p : String) : String :=
  let parts := splitOnChar '.' p.data
  if parts.length ≤ 1 then "" else String.mk ('.' :: parts.getLastD [])

/-- `InputMapping` maps an output of a dependency workspace to a
variable of the declaring workspace. -/
structure InputMapping where
  sourceWorkspace : String
  sourceOutput : String
  targetVar : String

/-- `WorkspaceConfig` declares one run target; `extraVars` is populated
at runtime by the parent workflow from resolved input mappings. -/
structure WorkspaceConfig where
  name : String := ""
  kind : String := ""
  dir : String := ""
  tfvars : String := ""
  dependsOn : List String := []
  inputs : List InputMapping := []
  taskQueue : String := ""
  operations : List String := []
  extraVars : List (String × JValue) := []

/-- `InfrastructureConfig` is the overall set of workspaces. -/
structure InfrastructureConfig where
  workspaceRoot : String := ""
  workspaces : List WorkspaceConfig := []

/-- Payload of the `workspace-finished` signal. `outputs` is `none`
when the executor signals with a nil outputs map. -/
structure WorkspaceFinishedSig where
  name : String
  outputs : Option (List (String × JValue))

/-- The validator's error kinds (one per distinct `fmt.Errorf` site in
`ValidateInfrastructureConfig` / `ValidateWorkspaceOperations`).
`fuelExhausted` is an artifact of the fueled embedding of the source's
unbounded recursion; theorems below show it is unreachable where it
matters. -/
inductive VError where
  | noWorkspaces : VError
  | emptyName : VError
  | duplicateName (n : String) : VError
  | missingDir (n : String) : VError
  | unsupportedKind (kind n : String) : VError
  | cycle (n : String) : VError
  | unknownDependency (w d : String) : VError
  | selfDependency (w : String) : VError
  | inputSourceNotFound (w s : String) : VError
  | inputSourceNotDependency (w s : String) : VError
  | opUnknown (w op : String) : VError
  | opInitRequired (w : String) : VError
  | opValidateRequired (w : String) : VError
  | opValidateAfterInit (w : String) : VError
  | opPlanAfterValidate (w : String) : VError
  | opApplyNeedsPlan (w : String) : VError
  | opApplyAfterPlan (w : String) : VError
  | opKindNotImplemented (w kind : String) : VError
  | fuelExhausted : VError
deriving DecidableEq

/-- `isSupportedKind` from the source: only "" and "terraform". -/
def isSupportedKind (kind : String) : Bool :=
  kind = "" || kind = "terraform"

/-- `getDefaultOperations` from the source. -/
def getDefaultOperations (kind : String) : List String :=
  let kind := if kind = "" then "terraform" else kind
  if kind = "terraform" then ["init", "validate", "plan", "apply"] else []

/-- `NormalizeInfrastructureConfig`: apply the kind and operations
defaults and resolve relative paths against the workspace root (itself
resolved against `cwd`, the result of `os.Getwd`). -/
def NormalizeInfrastructureConfig (cwd : String) (cfg : InfrastructureConfig) :
    InfrastructureConfig :=
  let root := cfg.workspaceRoot
  let base := if root = "" then "." else root
  let base := if isAbs base then base else joinPath cwd base
  { cfg with
    workspaces := cfg.workspaces.map fun ws =>
      let ws := if ws.kind = "" then { ws with kind := "terraform" } else ws
      let ws := if isAbs ws.dir then ws else { ws with dir := joinPath base ws.dir }
      let ws :=
        if ws.tfvars ≠ "" && !isAbs ws.tfvars then
          { ws with tfvars := joinPath base ws.tfvars }
        else ws
      if ws.operations.length = 0 then
        { ws with operations := getDefaultOperations ws.kind }
      else ws }

/-- The kind defaulting applied throughout the validator:
`kind := ws.Kind; if kind == "" { kind = "terraform" }`. -/
def defaultKind (kind : String) : String :=
  if kind = "" then "terraform" else kind

/-- The first, structural pass of `ValidateInfrastructureConfig`: the
loop that builds the name index while rejecting empty names, duplicate
names, missing dirs and unsupported kinds. -/
def buildIndex : List WorkspaceConfig → List (String × WorkspaceConfig) →
    Except VError (List (String × WorkspaceConfig))
  | [], idx => .ok idx
  | ws :: rest, idx =>
    if trimSpace ws.name = "" then .error .emptyName
    else if (findKey idx ws.name).isSome then .error (.duplicateName ws.name)
    else if trimSpace ws.dir = "" then .error (.missingDir ws.name)
    else if !isSupportedKind (defaultKind ws.kind) then
      .error (.unsupportedKind (defaultKind ws.kind) ws.name)
    else buildIndex rest (insertKey idx ws.name ws)

/-- DFS colouring state: `visiting` is the set of on-stack names
(Go `visiting[n] = true`), `visited` the finished names. `visited` is
kept as a list in finishing order, newest first; the source stores it
as a `map[string]bool`, for which only membership is observable, so the
order is ghost information used by the proofs. -/
structure DfsSt where
  visiting : List String
  visited : List String

/-- The dependency function derived from the name index: Go
`index[name].DependsOn`, with the zero value (no dependencies) for
names absent from the index. -/
def depsOf (idx : List (String × WorkspaceConfig)) (n : String) : List String :=
  ((findKey idx n).map WorkspaceConfig.dependsOn).getD []

/-- Sequentially run a DFS step over a list of names, threading the
state and stopping at the first error; this is both the
`for _, dep := range ws.DependsOn` loop inside `dfs` and the top-level
`for _, ws := range cfg.Workspaces` driver loop. -/
def dfsFold (f : DfsSt → String → Except VError DfsSt) :
    DfsSt → List String → Except VError DfsSt
  | st, [] => .ok st
  | st, d :: ds =>
    match f st d with
    | .error e => .error e
    | .ok st' => dfsFold f st' ds

/-- The `dfs` closure of `ValidateInfrastructureConfig`: three-state
colouring, reporting a cycle when an on-stack name is revisited. The
source recurses without bound; the embedding carries fuel, shown
sufficient below. -/
def dfs (g : String → List String) : Nat → DfsSt → String → Except VError DfsSt
  | 0, _, _ => .error .fuelExhausted
  | fuel + 1, st, name =>
    if name ∈ st.visiting then .error (.cycle name)
    else if name ∈ st.visited then .ok st
    else
      match dfsFold (dfs g fuel) { st with visiting := name :: st.visiting } (g name) with
      | .error e => .error e
      | .ok st' =>
        .ok { visiting := st'.visiting.filter (fun m => m ≠ name),
              visited := name :: st'.visited }

/-- DFS over a list of start names with shared fuel per call. -/
def dfsList (g : String → List String) (fuel : Nat) (st : DfsSt)
    (ds : List String) : Except VError DfsSt :=
  dfsFold (dfs g fuel) st ds

/-- `isTransitivelyDependent` from the source: does `target` depend on
`source`, directly or transitively. Fueled embedding of the unbounded
recursion (the source only calls it on already cycle-checked configs). -/
def isTransitivelyDependent (idx : List (String × WorkspaceConfig)) :
    Nat → String → String → Bool
  | 0, _, _ => false
  | fuel + 1, target, source =>
    match findKey idx target with
    | none => false
    | some ws =>
      ws.dependsOn.any fun dep =>
        dep = source || isTransitivelyDependent idx fuel dep source

/-- Last index of `op` in `operations`, -1 if absent (the source's
index-recording loop overwrites on duplicates). -/
def lastIdxOf (ops : List String) (op : String) : Int :=
  (ops.foldl (fun (p : Int × Int) o =>
      (p.1 + 1, if o = op then p.1 else p.2)) (0, -1)).2

/-- `validateTerraformOperations` from the source: known ops only,
init and validate required, and ordering constraints between the last
occurrences of init/validate/plan/apply. -/
def validateTerraformOperations (name : String) (operations : List String) :
    Except VError Unit :=
  let validOps := ["init", "validate", "plan", "apply"]
  match operations.find? (fun op => !validOps.contains op) with
  | some op => .error (.opUnknown name op)
  | none =>
    let hasInit := operations.contains "init"
    let hasValidate := operations.contains "validate"
    let hasPlan := operations.contains "plan"
    let hasApply := operations.contains "apply"
    if !hasInit then .error (.opInitRequired name)
    else if !hasValidate then .error (.opValidateRequired name)
    else
      let initIdx := lastIdxOf operations "init"
      let validateIdx := lastIdxOf operations "validate"
      let planIdx := lastIdxOf operations "plan"
      let applyIdx := lastIdxOf operations "apply"
      if validateIdx < initIdx then .error (.opValidateAfterInit name)
      else if hasPlan && planIdx < validateIdx then
        .error (.opPlanAfterValidate name)
      else if hasApply && !hasPlan then .error (.opApplyNeedsPlan name)
      else if hasApply && applyIdx < planIdx then
        .error (.opApplyAfterPlan name)
      else .ok ()

/-- `ValidateWorkspaceOperations` from the source. -/
def ValidateWorkspaceOperations (ws : WorkspaceConfig) : Except VError Unit :=
  let kind := if ws.kind = "" then "terraform" else ws.kind
  if ws.operations.length = 0 then .ok ()
  else if kind = "terraform" then
    validateTerraformOperations ws.name ws.operations
  else .error (.opKindNotImplemented ws.name kind)

/-- The dependency-existence / self-dependency / input-mapping pass of
`ValidateInfrastructureConfig`. -/
def validateRefs (idx : List (String × WorkspaceConfig)) (fuel : Nat) :
    List WorkspaceConfig → Except VError Unit
  | [] => .ok ()
  | ws :: rest =>
    match ws.dependsOn.find? (fun dep => !(findKey idx dep).isSome) with
    | some dep => .error (.unknownDependency ws.name dep)
    | none =>
      if ws.dependsOn.contains ws.name then .error (.selfDependency ws.name)
      else
        match ws.inputs.find? (fun i => !(findKey idx i.sourceWorkspace).isSome) with
        | some i => .error (.inputSourceNotFound ws.name i.sourceWorkspace)
        | none =>
          match ws.inputs.find?
              (fun i => !isTransitivelyDependent idx fuel ws.name i.sourceWorkspace) with
          | some i => .error (.inputSourceNotDependency ws.name i.sourceWorkspace)
          | none => validateRefs idx fuel rest

/-- The operation-sequence pass of `ValidateInfrastructureConfig`. -/
def validateOps : List WorkspaceConfig → Except VError Unit
  | [] => .ok ()
  | ws :: rest =>
    match ValidateWorkspaceOperations ws with
    | .error e => .error e
    | .ok _ => validateOps rest

/-- `ValidateInfrastructureConfig` from the source: empty-list check,
structural index pass, DFS cycle detection, reference checks and
operation-sequence checks, in that order. The DFS fuel is one more than
the number of workspaces, which the proofs show is enough. -/
def ValidateInfrastructureConfig (cfg : InfrastructureConfig) : Except VError Unit :=
  if cfg.workspaces.length = 0 then .error .noWorkspaces
  else
    match buildIndex cfg.workspaces [] with
    | .error e => .error e
    | .ok idx =>
      let fuel := cfg.workspaces.length + 1
      match dfsList (depsOf idx) fuel ⟨[], []⟩ (cfg.workspaces.map (·.name)) with
      | .error e => .error e
      | .ok _ =>
        match validateRefs idx fuel cfg.workspaces with
        | .error e => .error e
        | .ok _ => validateOps cfg.workspaces

/-- The workspace-name index built by `CalculateDepths` (a plain Go map
insert loop, later entries overwriting earlier ones). -/
def buildNameIndex (workspaces : List WorkspaceConfig) :
    List (String × WorkspaceConfig) :=
  workspaces.foldl (fun idx ws => insertKey idx ws.name ws) []

/-- The `for _, dep := range ws.DependsOn` loop of `getDepth`,
accumulating the running maximum (started at -1 as in the source) while
threading the memo table through a depth step. -/
def depthFold (f : List (String × Int) → String → List (String × Int) × Int) :
    List (String × Int) → List String → Int → List (String × Int) × Int
  | memo, [], best => (memo, best)
  | memo, d :: ds, best =>
    let r := f memo d
    depthFold f r.1 ds (if r.2 > best then r.2 else best)

/-- The memoized `getDepth` closure of `CalculateDepths`: depth 0 for
names with no dependencies, otherwise one more than the maximum depth
of the dependencies. Fueled embedding of the unbounded recursion. -/
def getDepth (g : String → List String) :
    Nat → List (String × Int) → String → List (String × Int) × Int
  | 0, memo, _ => (memo, 0)
  | fuel + 1, memo, name =>
    match findKey memo name with
    | some d => (memo, d)
    | none =>
      if g name = [] then (insertKey memo name 0, 0)
      else
        let r := depthFold (getDepth g fuel) memo (g name) (-1)
        (insertKey r.1 name (r.2 + 1), r.2 + 1)

/-- `CalculateDepths` from the source: run `getDepth` over every
workspace, sharing the memo table. -/
def CalculateDepths (workspaces : List WorkspaceConfig) : List (String × Int) :=
  let g := depsOf (buildNameIndex workspaces)
  workspaces.foldl
    (fun memo ws => (getDepth g (workspaces.length + 1) memo ws.name).1) []

/-- Go map read `depths[name]` with zero value for missing keys. -/
def depthOf (depths : List (String × Int)) (n : String) : Int :=
  (findKey depths n).getD 0

/-! ### Terraform activities -/

/-- `TerraformParams` from the activities package. -/
structure TerraformParams where
  dir : String := ""
  tfvars : String := ""
  planFile : String := ""
  vars : List (String × JValue) := []
  runID : String := ""

/-- Environment responses consumed by `createCombinedTFVars`: the
outcome of reading and decoding the original variable file as JSON
(`.json` extension) or as HCL top-level attributes lowered to JSON
values (any other extension). -/
structure TFVarsEnv where
  readJson : Except String (List (String × JValue)) := .ok []
  readHcl : Except String (List (String × JValue)) := .ok []

/-- The deterministic combined-variables path
`<tmp>/terraform-orchestrator/<runID>/combined.tfvars.json`. -/
def combinedVarsPath (tmp runID : String) : String :=
  joinPath (joinPath (joinPath tmp "terraform-orchestrator") runID)
    "combined.tfvars.json"

/-- `createCombinedTFVars` from the source: pass the original path
through when there are no extra vars; otherwise decode the original
file (if any), merge the extra vars last (overriding same-named keys),
and write the result as JSON under the per-run temp directory. The
result pairs the returned path with the written content (`none` when
nothing was written). `tmp` is `os.TempDir()`. -/
def readVarsFile (params : TerraformParams) (env : TFVarsEnv) :
    Except String (List (String × JValue)) :=
  if params.tfvars = "" then .ok []
  else if extOf params.tfvars = ".json" then env.readJson
  else env.readHcl

/-- See `createCombinedTFVars` in the source (continued): the merge and
write step. -/
def createCombinedTFVars (tmp : String) (params : TerraformParams)
    (env : TFVarsEnv) : Except String (String × Option (List (String × JValue))) :=
  if params.vars.length = 0 then .ok (params.tfvars, none)
  else
    match readVarsFile params env with
    | .error e => .error e
    | .ok fileVars =>
      let merged := params.vars.foldl (fun m kv => insertKey m kv.1 kv.2) fileVars
      .ok (combinedVarsPath tmp params.runID, some merged)

/-- `planFilePath` from the source. -/
def planFilePath (params : TerraformParams) : String :=
  if trimSpace params.planFile = "" then "tfplan" else baseName params.planFile

/-- `planFullPath` from the source. -/
def planFullPath (params : TerraformParams) : String :=
  joinPath params.dir (planFilePath params)

/-- `ensurePlanFile` over a filesystem modelled as the list of existing
paths: create an empty placeholder when the path does not exist.
(The source's stat-error branch for an unreadable path is outside this
filesystem model; writes are assumed to succeed.) -/
def ensurePlanFile (path : String) (fs : List String) : List String :=
  if path ∈ fs then fs else path :: fs

/-- Environment responses consumed by `TerraformPlan`: whether the
precondition check `validatePaths` passes (a filesystem stat), the
variable-file environment, the tool's exit code, its combined
stdout/stderr, and whether the tool wrote the plan artifact. -/
structure PlanEnv where
  pathsOk : Bool := true
  tfvarsEnv : TFVarsEnv := {}
  exitCode : Nat := 0
  toolOutput : String := ""
  toolWritesPlan : Bool := true

/-- `TerraformPlan` from the source, as a function of the params, the
pre-existing filesystem and the environment's responses. Returns the
`changesPresent` flag paired with the filesystem after the activity.
Exit code 0 means no changes, 2 means changes present (both success,
both guaranteeing the plan artifact exists afterwards); any other
non-zero exit is a failure embedding the tool's combined output. -/
def TerraformPlan (tmp : String) (params : TerraformParams) (env : PlanEnv)
    (fs : List String) : Except String (Bool × List String) :=
  if !env.pathsOk then .error "terraform dir invalid"
  else
    match createCombinedTFVars tmp params env.tfvarsEnv with
    | .error e => .error e
    | .ok _ =>
      let planPath := planFullPath params
      let fs := if env.toolWritesPlan then planPath :: fs else fs
      if env.exitCode = 0 then .ok (false, ensurePlanFile planPath fs)
      else if env.exitCode = 2 then .ok (true, ensurePlanFile planPath fs)
      else
        .error ("terraform plan failed, exit " ++ toString env.exitCode ++
          ", output: " ++ env.toolOutput)

/-! ### Per-workspace executor workflow -/

/-- Environment responses for the five activities as seen by one
executor run: each activity invocation yields the listed outcome. -/
structure ActEnv where
  initRes : Except String Unit := .ok ()
  validateRes : Except String Unit := .ok ()
  planRes : Except String Bool := .ok false
  applyRes : Except String Unit := .ok ()
  outputRes : Except String (List (String × JValue)) := .ok []

/-- The operation loop of the executor's `runTerraform` closure:
interpret the configured operations in order, tracking the
`changesPresent` flag set by plan and skipping apply when it is false.
Returns the trace of invoked activities together with the flag, or the
first error. -/
def runOps (env : ActEnv) : List String → Bool →
    (List String × Except String Bool)
  | [], changes => ([], .ok changes)
  | op :: rest, changes =>
    if op = "init" then
      match env.initRes with
      | .error e => (["init"], .error ("init failed: " ++ e))
      | .ok _ =>
        let r := runOps env rest changes
        ("init" :: r.1, r.2)
    else if op = "validate" then
      match env.validateRes with
      | .error e => (["validate"], .error ("validate failed: " ++ e))
      | .ok _ =>
        let r := runOps env rest changes
        ("validate" :: r.1, r.2)
    else if op = "plan" then
      match env.planRes with
      | .error e => (["plan"], .error ("plan failed: " ++ e))
      | .ok c =>
        let r := runOps env rest c
        ("plan" :: r.1, r.2)
    else if op = "apply" then
      if !changes then runOps env rest changes
      else
        match env.applyRes with
        | .error e => (["apply"], .error ("apply failed: " ++ e))
        | .ok _ =>
          let r := runOps env rest changes
          ("apply" :: r.1, r.2)
    else ([], .error ("unknown operation: " ++ op))

/-- The executor's `runTerraform` closure: run the operation loop, then
unconditionally invoke the output activity and return its result.
Produces the activity trace alongside the outcome. -/
def runTerraformWF (env : ActEnv) (ops : List String) :
    List String × Except String (List (String × JValue)) :=
  let r := runOps env ops false
  match r.2 with
  | .error e => (r.1, .error e)
  | .ok _ =>
    match env.outputRes with
    | .error e => (r.1 ++ ["output"], .error e)
    | .ok outs => (r.1 ++ ["output"], .ok outs)

/-- Workflow identity as seen by `workflow.GetInfo`: the executor's own
run id, the optional parent execution id, and the optional root
execution (id, run id). -/
structure WFInfo where
  ownRunID : String := ""
  parentID : Option String := none
  root : Option (String × String) := none

/-- The orchestrator id the executor signals: the parent execution id,
overridden by the root execution id when present, "" when standalone. -/
def orchestratorID (info : WFInfo) : String :=
  let oid := ""
  let oid := match info.parentID with
    | some p => p
    | none => oid
  match info.root with
  | some r => r.1
  | none => oid

/-- The root run id used for params and child workflow ids: the
executor's own run id unless a root execution exists. -/
def rootRunID (info : WFInfo) : String :=
  match info.root with
  | some r => r.2
  | none => info.ownRunID

/-- The `TerraformParams` the executor builds for its activities; every
executor of one orchestration passes the root run id as `RunID`. -/
def terraformParamsOf (info : WFInfo) (ws : WorkspaceConfig) : TerraformParams :=
  { dir := ws.dir
    tfvars := ws.tfvars
    planFile := "tfplan-" ++ info.ownRunID ++ "-" ++ ws.name ++ ".plan"
    vars := ws.extraVars
    runID := rootRunID info }

/-- What one executor run produces before hosting: the
`workspace-finished` signals it sent to the orchestrator and its own
completion result. Mirrors `outputs, err := runTerraform();
signalParent(outputs); if err != nil ...`: the signal is sent before
the error check, carrying a nil outputs map on failure. -/
structure ExecOutcome where
  signals : List WorkspaceFinishedSig
  activityTrace : List String
  result : Except String (List (String × JValue))

/-- The executor workflow `TerraformWorkflow` up to (and excluding) the
hosting receive loop. -/
def TerraformWorkflowModel (info : WFInfo) (env : ActEnv)
    (ws : WorkspaceConfig) : ExecOutcome :=
  let oid := orchestratorID info
  let r := runTerraformWF env ws.operations
  let outs : Option (List (String × JValue)) :=
    match r.2 with
    | .ok o => some o
    | .error _ => none
  let signals := if oid = "" then [] else [⟨ws.name, outs⟩]
  { signals := signals, activityTrace := r.1, result := r.2 }

/-- The hosting receive loop's child-future handler: a failing child is
logged; the host's own result is unaffected either way. Takes the
resolutions of the child futures the host accumulated and returns the
log entries produced. -/
def hostChildFailureLogs
    (children : List (WorkspaceConfig × Except String (List (String × JValue)))) :
    List String :=
  children.foldl
    (fun logs c =>
      match c.2 with
      | .error e => logs ++ ["Child workflow failed: " ++ e]
      | .ok _ => logs) []

/-- The full executor under an orchestrator: run the operations, signal
the parent, and (on success, with a parent present) host the given
children, whose failures are only logged. The host's returned result
never depends on the child resolutions. -/
def TerraformWorkflowHosted (info : WFInfo) (env : ActEnv)
    (ws : WorkspaceConfig)
    (children : List (WorkspaceConfig × Except String (List (String × JValue)))) :
    ExecOutcome × List String :=
  let base := TerraformWorkflowModel info env ws
  match base.result with
  | .error _ => (base, [])
  | .ok _ =>
    if orchestratorID info = "" then (base, [])
    else (base, hostChildFailureLogs children)

/-! ### Orchestrator workflow -/

/-- How a workspace executor got launched: as a root child at
orchestrator startup, via a `start-child` signal to a host executor, or
as a root child by the fallback path after host signalling failed. -/
inductive LaunchKind where
  | startupRoot : LaunchKind
  | hosted (host : String) : LaunchKind
  | fallbackRoot : LaunchKind
deriving DecidableEq

/-- Ghost record of one executor launch: the workspace configuration it
was dispatched with (extra vars resolved) and the names of the
`workspace-finished` signals the orchestrator had received before the
launch. -/
structure LaunchEvent where
  ws : WorkspaceConfig
  kind : LaunchKind
  seen : List String

/-- The orchestrator's run state (`completedWorkspaces`,
`workspaceOutputs`, `runningWorkflows`, `rootFutures`), extended with
the ghost launch trace. `rootFutures` keeps the names whose completion
future the orchestrator retains. -/
structure OrchState where
  completed : List String := []
  outputs : List (String × List (String × JValue)) := []
  running : List (String × String) := []
  rootFutures : List String := []
  launches : List LaunchEvent := []

/-- `allDependenciesMet` from the source. -/
def allDependenciesMet (ws : WorkspaceConfig) (completed : List String) : Bool :=
  ws.dependsOn.all (fun dep => completed.contains dep)

/-- `isRunning` from the source. -/
def isRunning (name : String) (running : List (String × String)) : Bool :=
  (findKey running name).isSome

/-- Child workflow id `iac-<run-id>-<name>`. -/
def childWorkflowID (runID name : String) : String :=
  "iac-" ++ runID ++ "-" ++ name

/-- Step 1 of `startWorkspace`: resolve `extraVars` from the stored
outputs, copying each mapped value with its JSON type preserved and
silently skipping mappings whose source value is absent. -/
def resolveExtraVars (ws : WorkspaceConfig)
    (outputs : List (String × List (String × JValue))) : WorkspaceConfig :=
  if ws.inputs.length = 0 then ws
  else
    { ws with
      extraVars := ws.inputs.foldl
        (fun acc m =>
          match findKey ((findKey outputs m.sourceWorkspace).getD []) m.sourceOutput with
          | some v => insertKey acc m.targetVar v
          | none => acc)
        ws.extraVars }

/-- Step 2 of `startWorkspace`: the host is the dependency with the
greatest depth, the running maximum kept only on strict improvement so
ties go to the earliest dependency. `d0` is `ws.DependsOn[0]`, `deps`
the full `ws.DependsOn` slice the source iterates over. -/
def pickHost (depths : List (String × Int)) (d0 : String)
    (deps : List String) : String :=
  (deps.foldl
    (fun best dep =>
      if depthOf depths dep > best.2 then (dep, depthOf depths dep) else best)
    (d0, depthOf depths d0)).1

/-- Launch a workspace as a direct root child of the orchestrator:
retain its future in `rootFutures`, record it in `running`. -/
def rootLaunch (runID : String) (kind : LaunchKind) (seen : List String)
    (st : OrchState) (ws : WorkspaceConfig) : OrchState :=
  { st with
    rootFutures := st.rootFutures ++ [ws.name]
    running := insertKey st.running ws.name (childWorkflowID runID ws.name)
    launches := st.launches ++ [⟨ws, kind, seen⟩] }

/-- `startWorkspace` from the source: resolve inputs, then either ask
the deepest dependency's executor to host the workspace (recording it
as running on signal success) or fall back to a direct root launch.
`signalOk` tells whether the `start-child` signal to the host is
delivered. -/
def startWorkspaceDispatch (runID : String) (signalOk : String → Bool)
    (depths : List (String × Int)) (seen : List String) (st : OrchState)
    (ws : WorkspaceConfig) : OrchState :=
  match ws.dependsOn with
  | [] => rootLaunch runID .fallbackRoot seen st ws
  | d0 :: _ =>
    let host := pickHost depths d0 ws.dependsOn
    if signalOk ws.name then
      { st with
        running := insertKey st.running ws.name (childWorkflowID runID ws.name)
        launches := st.launches ++ [⟨ws, .hosted host, seen⟩] }
    else rootLaunch runID .fallbackRoot seen st ws

/-- `startWorkspace` from the source: step 1 resolves the inputs, then
the dispatch step runs. -/
def startWorkspaceModel (runID : String) (signalOk : String → Bool)
    (depths : List (String × Int)) (seen : List String) (st : OrchState)
    (ws : WorkspaceConfig) : OrchState :=
  startWorkspaceDispatch runID signalOk depths seen st (resolveExtraVars ws st.outputs)

/-- One iteration of the readiness scan inside the `workspace-finished`
handler: skip completed or running workspaces, start those whose
dependencies are all completed. -/
def scanStep (runID : String) (signalOk : String → Bool)
    (depths : List (String × Int)) (seen : List String) (st : OrchState)
    (ws : WorkspaceConfig) : OrchState :=
  if st.completed.contains ws.name || isRunning ws.name st.running then st
  else if allDependenciesMet ws st.completed then
    startWorkspaceModel runID signalOk depths seen st ws
  else st

/-- The readiness scan run by the `workspace-finished` handler after
recording the signal. -/
def readyScan (cfgWs : List WorkspaceConfig) (runID : String)
    (signalOk : String → Bool) (depths : List (String × Int))
    (seen : List String) (st : OrchState) : OrchState :=
  cfgWs.foldl (scanStep runID signalOk depths seen) st

/-- The body of the orchestrator's `workspace-finished` receive
handler: record completion and outputs, then start every not-completed,
not-running workspace whose dependencies are all completed. `seen` is
the ghost list of signal names delivered so far, including this one. -/
def handleFinished (cfgWs : List WorkspaceConfig) (runID : String)
    (signalOk : String → Bool) (depths : List (String × Int))
    (st : OrchState) (sig : WorkspaceFinishedSig) (seen : List String) :
    OrchState :=
  readyScan cfgWs runID signalOk depths seen
    { st with
      completed := insertName st.completed sig.name
      outputs := insertKey st.outputs sig.name (sig.outputs.getD []) }

/-- The orchestration loop: while fewer workspaces are completed than
configured, receive the next `workspace-finished` signal from the
schedule and handle it. An exhausted schedule with the condition still
true models the loop blocked waiting for a signal that never comes. -/
def orchLoop (cfgWs : List WorkspaceConfig) (runID : String)
    (signalOk : String → Bool) (depths : List (String × Int)) :
    OrchState → List WorkspaceFinishedSig → List String → OrchState
  | st, [], _ => st
  | st, sig :: rest, seen =>
    if st.completed.length < cfgWs.length then
      orchLoop cfgWs runID signalOk depths
        (handleFinished cfgWs runID signalOk depths st sig (seen ++ [sig.name]))
        rest (seen ++ [sig.name])
    else st

/-- One iteration of the orchestrator's startup loop: launch the
workspace as a direct root child when it has no dependencies. -/
def startupStep (runID : String) (st : OrchState) (ws : WorkspaceConfig) :
    OrchState :=
  if ws.dependsOn.length = 0 then rootLaunch runID .startupRoot [] st ws else st

/-- An orchestration-level error: a configuration validation error, or
the first error among the awaited root futures. -/
inductive PError where
  | config (e : VError) : PError
  | exec (e : String) : PError
deriving DecidableEq

/-- How a `ParentWorkflow` run ends: it returns a result, or its
completion loop blocks forever because too few `workspace-finished`
signals ever arrive. -/
inductive POutcome where
  | returns (r : Except PError Unit) : POutcome
  | stalled : POutcome

/-- Everything observable about one `ParentWorkflow` run. -/
structure ParentRun where
  outcome : POutcome
  launches : List LaunchEvent
  final : OrchState

/-- The await loop over `rootFutures`: every future is awaited, the
first error observed is retained. `resolveRoot` gives each root
future's resolution. (The source iterates a Go map in unspecified
order; the embedding fixes creation order, which no theorem depends
on.) -/
def firstRootError (resolveRoot : String → Except String Unit)
    (roots : List String) : Option String :=
  roots.foldl
    (fun acc n =>
      match acc with
      | some _ => acc
      | none =>
        match resolveRoot n with
        | .error e => some e
        | .ok _ => none)
    none

/-- `ParentWorkflow` from the source: validate, normalize, compute
depths, launch the root workspaces, drive the completion loop over the
delivered signal schedule, then await every root future and return the
first error, if any. `cwd` feeds normalization, `runID` is the
orchestrator's run id, `signalOk` the `start-child` delivery oracle,
`schedule` the `workspace-finished` signals delivered to the
orchestrator in order, and `resolveRoot` the root futures' outcomes. -/
def ParentWorkflowModel (cwd runID : String) (signalOk : String → Bool)
    (schedule : List WorkspaceFinishedSig)
    (resolveRoot : String → Except String Unit)
    (rawConfig : InfrastructureConfig) : ParentRun :=
  match ValidateInfrastructureConfig rawConfig with
  | .error e => { outcome := .returns (.error (.config e)), launches := [], final := {} }
  | .ok _ =>
    let cfg := NormalizeInfrastructureConfig cwd rawConfig
    let depths := CalculateDepths cfg.workspaces
    let st0 := cfg.workspaces.foldl (startupStep runID) {}
    let stF := orchLoop cfg.workspaces runID signalOk depths st0 schedule []
    if stF.completed.length < cfg.workspaces.length then
      { outcome := .stalled, launches := stF.launches, final := stF }
    else
      match firstRootError resolveRoot stF.rootFutures with
      | some e => { outcome := .returns (.error (.exec e)), launches := stF.launches, final := stF }
      | none => { outcome := .returns (.ok ()), launches := stF.launches, final := stF }

/-! ### Helper lemmas -/

theorem mem_ensurePlanFile (p : String) (fs : List String) :
    p ∈ ensurePlanFile p fs := by
  unfold ensurePlanFile
  split
  · assumption
  · exact List.mem_cons_self p fs

/-- With init/validate succeeding and plan reporting no changes, the
operation loop invokes exactly the non-apply operations in order and
ends with the flag still false. -/
theorem runOps_no_changes (env : ActEnv)
    (hinit : env.initRes = .ok ()) (hval : env.validateRes = .ok ())
    (hplan : env.planRes = .ok false) :
    ∀ ops : List String,
      (∀ op ∈ ops, op = "init" ∨ op = "validate" ∨ op = "plan" ∨ op = "apply") →
      runOps env ops false = (ops.filter (fun op => op ≠ "apply"), .ok false) := by
  intro ops
  induction ops with
  | nil => intro _; simp [runOps]
  | cons op rest ih =>
    intro hops
    have hrest : ∀ op ∈ rest, op = "init" ∨ op = "validate" ∨ op = "plan" ∨ op = "apply" :=
      fun o ho => hops o (List.mem_cons_of_mem _ ho)
    rcases hops op (List.mem_cons_self _ _) with h | h | h | h <;> subst h <;>
      simp [runOps, hinit, hval, hplan, ih hrest]

/-! ### Claim theorems -/

/-- Claim C4: `TerraformPlan` returns no changes on tool exit 0,
changes present on exit 2, and an error embedding the tool's combined
output on any other non-zero exit; on both success cases the plan
artifact exists afterwards at the path derived from the directory and
the plan-file name, created as an empty placeholder if the tool omitted
it. -/
theorem terraformPlan_exit_code_contract (tmp : String)
    (params : TerraformParams) (env : PlanEnv) (fs : List String)
    (hpaths : env.pathsOk = true)
    (htf : ∃ r, createCombinedTFVars tmp params env.tfvarsEnv = .ok r) :
    (env.exitCode = 0 →
      ∃ fs', TerraformPlan tmp params env fs = .ok (false, fs') ∧
        planFullPath params ∈ fs') ∧
    (env.exitCode = 2 →
      ∃ fs', TerraformPlan tmp params env fs = .ok (true, fs') ∧
        planFullPath params ∈ fs') ∧
    (env.exitCode ≠ 0 → env.exitCode ≠ 2 →
      ∃ e, TerraformPlan tmp params env fs = .error e ∧
        ∃ p, e = p ++ env.toolOutput) := by
  obtain ⟨r, hr⟩ := htf
  refine ⟨?_, ?_, ?_⟩
  · intro h0
    refine ⟨ensurePlanFile (planFullPath params)
      (if env.toolWritesPlan then planFullPath params :: fs else fs), ?_, ?_⟩
    · simp [TerraformPlan, hpaths, hr, h0]
    · exact mem_ensurePlanFile _ _
  · intro h2
    refine ⟨ensurePlanFile (planFullPath params)
      (if env.toolWritesPlan then planFullPath params :: fs else fs), ?_, ?_⟩
    · simp [TerraformPlan, hpaths, hr, h2]
    · exact mem_ensurePlanFile _ _
  · intro h0 h2
    refine ⟨"terraform plan failed, exit " ++ toString env.exitCode ++
      ", output: " ++ env.toolOutput, ?_, ?_⟩
    · simp [TerraformPlan, hpaths, hr, h0, h2]
    · exact ⟨"terraform plan failed, exit " ++ toString env.exitCode ++ ", output: ", rfl⟩

/-- Witness for C4 at a concrete input: paths valid, no extra vars, the
tool exits 2 without writing the plan artifact. -/
theorem terraformPlan_exit_code_contract_witness :
    ∃ fs', TerraformPlan "/tmp" { dir := "/w/vpc" }
        { exitCode := 2, toolWritesPlan := false } [] = .ok (true, fs') ∧
      planFullPath { dir := "/w/vpc" } ∈ fs' :=
  (terraformPlan_exit_code_contract "/tmp" { dir := "/w/vpc" }
    { exitCode := 2, toolWritesPlan := false } [] rfl
    ⟨("", none), rfl⟩).2.1 rfl

/-- Claim C5: when plan reports no changes, the executor skips the
apply activity, still invokes the output activity after the operation
loop (in every mode, plan-only included), and completes successfully
when the remaining activities succeed. -/
theorem executor_no_changes_skips_apply (env : ActEnv) (ops : List String)
    (outs : List (String × JValue))
    (hops : ∀ op ∈ ops, op = "init" ∨ op = "validate" ∨ op = "plan" ∨ op = "apply")
    (hinit : env.initRes = .ok ()) (hval : env.validateRes = .ok ())
    (hplan : env.planRes = .ok false) (hout : env.outputRes = .ok outs) :
    "apply" ∉ (runTerraformWF env ops).1 ∧
    (runTerraformWF env ops).1.getLast? = some "output" ∧
    (runTerraformWF env ops).2 = .ok outs := by
  have hrun := runOps_no_changes env hinit hval hplan ops hops
  refine ⟨?_, ?_, ?_⟩
  · simp [runTerraformWF, hrun, hout, List.mem_filter]
  · simp [runTerraformWF, hrun, hout]
  · simp [runTerraformWF, hrun, hout]

/-- Witness for C5 at a concrete input: the default full operation
list, plan reporting no changes. -/
theorem executor_no_changes_skips_apply_witness :
    "apply" ∉ (runTerraformWF { outputRes := .ok [("vpc_id", .str "vpc-1")] }
      ["init", "validate", "plan", "apply"]).1 ∧
    (runTerraformWF { outputRes := .ok [("vpc_id", .str "vpc-1")] }
      ["init", "validate", "plan", "apply"]).1.getLast? = some "output" ∧
    (runTerraformWF { outputRes := .ok [("vpc_id", .str "vpc-1")] }
      ["init", "validate", "plan", "apply"]).2 = .ok [("vpc_id", .str "vpc-1")] :=
  executor_no_changes_skips_apply _ _ _ (by decide) rfl rfl rfl rfl

/-- Counterexample to claim C1 as stated: an executor under an
orchestrator whose init activity fails nevertheless sends the
`workspace-finished` signal (with nil outputs), because the source
calls `signalParent(outputs)` before checking the error from
`runTerraform`. -/
theorem failing_executor_still_signals_counterexample :
    (TerraformWorkflowModel
        { ownRunID := "run-1", parentID := some "orch-1", root := some ("orch-1", "run-0") }
        { initRes := .error "boom" }
        { name := "vpc", dir := "/w/vpc",
          operations := ["init", "validate", "plan", "apply"] }).result =
      .error "init failed: boom" ∧
    (TerraformWorkflowModel
        { ownRunID := "run-1", parentID := some "orch-1", root := some ("orch-1", "run-0") }
        { initRes := .error "boom" }
        { name := "vpc", dir := "/w/vpc",
          operations := ["init", "validate", "plan", "apply"] }).signals =
      [⟨"vpc", none⟩] :=
  ⟨rfl, rfl⟩

/-- Claim C1 as amended: an executor under an orchestrator whose
operation sequence (or output activity) fails still sends exactly one
`workspace-finished` signal, carrying a nil outputs map, and also
surfaces the failure through its own completion path. -/
theorem failing_executor_signals_nil_outputs (info : WFInfo) (env : ActEnv)
    (ws : WorkspaceConfig) (e : String)
    (horch : orchestratorID info ≠ "")
    (hfail : (runTerraformWF env ws.operations).2 = .error e) :
    (TerraformWorkflowModel info env ws).result = .error e ∧
    (TerraformWorkflowModel info env ws).signals = [⟨ws.name, none⟩] := by
  constructor
  · simp [TerraformWorkflowModel, hfail]
  · simp [TerraformWorkflowModel, hfail, horch]

/-- Witness for the amended C1 at a concrete input. -/
theorem failing_executor_signals_nil_outputs_witness :
    (TerraformWorkflowModel
        { ownRunID := "run-2", parentID := some "orch-2", root := none }
        { validateRes := .error "bad config" }
        { name := "db", dir := "/w/db", operations := ["init", "validate"] }).result =
      .error "validate failed: bad config" ∧
    (TerraformWorkflowModel
        { ownRunID := "run-2", parentID := some "orch-2", root := none }
        { validateRes := .error "bad config" }
        { name := "db", dir := "/w/db", operations := ["init", "validate"] }).signals =
      [⟨"db", none⟩] :=
  failing_executor_signals_nil_outputs _ _ _ _ (by decide) rfl

/-- The variable-file content the tool effectively reads after
`createCombinedTFVars`: the written combined content if one was
produced, the original file content otherwise. -/
def effectiveVarsContent (orig : List (String × JValue))
    (written : Option (List (String × JValue))) : List (String × JValue) :=
  written.getD orig

/-- Claim C8: merging a variable file holding a string, a number, a
boolean, an array, an object and a null with an empty runtime map
passes the original file path through unchanged, so the variable file
the tool reads holds exactly those JSON types for those keys. -/
theorem empty_runtime_map_preserves_types :
    createCombinedTFVars "/tmp"
        { tfvars := "/w/vars.tfvars.json", runID := "run-1", vars := [] }
        { readJson := .ok [("a", .str "s"), ("b", .num 1), ("c", .bool true),
            ("d", .arr [.num 1, .num 2]), ("e", .obj [("k", .str "v")]),
            ("f", .null)] } =
      .ok ("/w/vars.tfvars.json", none) ∧
    (let content := effectiveVarsContent
        [("a", .str "s"), ("b", .num 1), ("c", .bool true),
          ("d", .arr [.num 1, .num 2]), ("e", .obj [("k", .str "v")]), ("f", .null)]
        none
     findKey content "a" = some (.str "s") ∧
     findKey content "b" = some (.num 1) ∧
     findKey content "c" = some (.bool true) ∧
     findKey content "d" = some (.arr [.num 1, .num 2]) ∧
     findKey content "e" = some (.obj [("k", .str "v")]) ∧
     findKey content "f" = some .null) :=
  ⟨rfl, rfl, rfl, rfl, rfl, rfl, rfl⟩

/-- Claim C10: two executors of the same orchestration (same root
execution) that both carry extra vars get their combined variable file
written to, and returned from, the identical path
`<tmp>/terraform-orchestrator/<root-run-id>/combined.tfvars.json`,
regardless of workspace directory or variable contents, because every
executor passes the root run id as `RunID`. -/
theorem combined_tfvars_path_shared_per_run (tmp : String)
    (info1 info2 : WFInfo) (ws1 ws2 : WorkspaceConfig)
    (e1 e2 : TFVarsEnv) (root : String × String)
    (r1 r2 : String × Option (List (String × JValue)))
    (h1 : info1.root = some root) (h2 : info2.root = some root)
    (hv1 : ws1.extraVars ≠ []) (hv2 : ws2.extraVars ≠ [])
    (hc1 : createCombinedTFVars tmp (terraformParamsOf info1 ws1) e1 = .ok r1)
    (hc2 : createCombinedTFVars tmp (terraformParamsOf info2 ws2) e2 = .ok r2) :
    r1.1 = combinedVarsPath tmp root.2 ∧ r2.1 = combinedVarsPath tmp root.2 ∧
    r1.1 = r2.1 ∧ r1.2.isSome ∧ r2.2.isSome := by
  have key : ∀ (info : WFInfo) (ws : WorkspaceConfig) (e : TFVarsEnv)
      (r : String × Option (List (String × JValue))),
      info.root = some root → ws.extraVars ≠ [] →
      createCombinedTFVars tmp (terraformParamsOf info ws) e = .ok r →
      r.1 = combinedVarsPath tmp root.2 ∧ r.2.isSome := by
    intro info ws e r hroot hv hc
    have hlen : ¬ (terraformParamsOf info ws).vars.length = 0 := by
      simpa [terraformParamsOf, List.length_eq_zero] using hv
    have hrun : rootRunID info = root.2 := by simp [rootRunID, hroot]
    rcases hread : readVarsFile (terraformParamsOf info ws) e with err | fileVars
    · simp [createCombinedTFVars, hlen, hread] at hc
    · simp [createCombinedTFVars, hlen, hread] at hc
      rw [← hc]
      simp [terraformParamsOf, hrun]
  obtain ⟨p1, s1⟩ := key info1 ws1 e1 r1 h1 hv1 hc1
  obtain ⟨p2, s2⟩ := key info2 ws2 e2 r2 h2 hv2 hc2
  exact ⟨p1, p2, p1.trans p2.symm, s1, s2⟩

/-- Witness for C10 at concrete inputs: two workspaces with different
directories and different extra vars under one orchestration. -/
theorem combined_tfvars_path_shared_per_run_witness :
    ("/tmp/terraform-orchestrator/root-run/combined.tfvars.json",
        some [("x", JValue.num 1)]).1 =
      combinedVarsPath "/tmp" "root-run" ∧
    ("/tmp/terraform-orchestrator/root-run/combined.tfvars.json",
        some [("y", JValue.str "s")]).1 =
      combinedVarsPath "/tmp" "root-run" ∧
    ("/tmp/terraform-orchestrator/root-run/combined.tfvars.json",
        some [("x", JValue.num 1)]).1 =
      ("/tmp/terraform-orchestrator/root-run/combined.tfvars.json",
        some [("y", JValue.str "s")]).1 ∧
    ("/tmp/terraform-orchestrator/root-run/combined.tfvars.json",
        some [("x", JValue.num 1)]).2.isSome ∧
    ("/tmp/terraform-orchestrator/root-run/combined.tfvars.json",
        some [("y", JValue.str "s")]).2.isSome :=
  combined_tfvars_path_shared_per_run "/tmp"
    { ownRunID := "run-a", root := some ("orch", "root-run") }
    { ownRunID := "run-b", root := some ("orch", "root-run") }
    { name := "vpc", dir := "/w/vpc", extraVars := [("x", .num 1)] }
    { name := "db", dir := "/w/db", extraVars := [("y", .str "s")] }
    {} {} ("orch", "root-run") _ _ rfl rfl (by simp) (by simp) rfl rfl

theorem findKey_insertKey_self {α : Type} (l : List (String × α)) (k : String)
    (v : α) : findKey (insertKey l k v) k = some v := by
  induction l with
  | nil => simp [insertKey, findKey]
  | cons kv rest ih =>
    by_cases h : kv.1 = k
    · simp [insertKey, findKey, h]
    · simp [insertKey, findKey, h, ih]

theorem findKey_insertKey_ne {α : Type} (l : List (String × α)) (k k' : String)
    (v : α) (h : k' ≠ k) : findKey (insertKey l k v) k' = findKey l k' := by
  induction l with
  | nil =>
    simp only [insertKey, findKey]
    rw [if_neg (fun hh => h hh.symm)]
  | cons kv rest ih =>
    by_cases hk : kv.1 = k
    · simp only [insertKey, if_pos hk, findKey]
      rw [if_neg (fun hh => h hh.symm), if_neg (fun hh => h (hh.symm.trans hk))]
    · simp only [insertKey, if_neg hk, findKey, ih]

/-- One step of the `extraVars` resolution loop. -/
def resolveStep (outputs : List (String × List (String × JValue)))
    (acc : List (String × JValue)) (m : InputMapping) : List (String × JValue) :=
  match findKey ((findKey outputs m.sourceWorkspace).getD []) m.sourceOutput with
  | some v => insertKey acc m.targetVar v
  | none => acc

theorem resolveExtraVars_eq_fold (ws : WorkspaceConfig)
    (outputs : List (String × List (String × JValue))) :
    (resolveExtraVars ws outputs).extraVars =
      ws.inputs.foldl (resolveStep outputs) ws.extraVars := by
  unfold resolveExtraVars resolveStep
  by_cases h : ws.inputs.length = 0
  · rw [if_pos h]
    rw [List.length_eq_zero] at h
    rw [h]
    rfl
  · rw [if_neg h]

/-- Folding mappings none of which target `t` leaves `t`'s binding
unchanged. -/
theorem fold_resolve_no_target (outputs : List (String × List (String × JValue)))
    (t : String) :
    ∀ (inputs : List InputMapping) (acc : List (String × JValue)),
      t ∉ inputs.map InputMapping.targetVar →
      findKey (inputs.foldl (resolveStep outputs) acc) t = findKey acc t := by
  intro inputs
  induction inputs with
  | nil => intro acc _; rfl
  | cons i rest ih =>
    intro acc ht
    simp only [List.map_cons, List.mem_cons, not_or] at ht
    rw [List.foldl_cons, ih _ ht.2]
    unfold resolveStep
    cases findKey ((findKey outputs i.sourceWorkspace).getD []) i.sourceOutput with
    | none => rfl
    | some v => exact findKey_insertKey_ne _ _ _ _ ht.1

/-- Per-mapping behaviour of the resolution fold under pairwise
distinct target variables. -/
theorem fold_resolve_spec (outputs : List (String × List (String × JValue))) :
    ∀ (inputs : List InputMapping) (acc : List (String × JValue))
      (m : InputMapping), m ∈ inputs →
      (inputs.map InputMapping.targetVar).Nodup →
      ((∀ v, findKey ((findKey outputs m.sourceWorkspace).getD []) m.sourceOutput = some v →
          findKey (inputs.foldl (resolveStep outputs) acc) m.targetVar = some v) ∧
        (findKey ((findKey outputs m.sourceWorkspace).getD []) m.sourceOutput = none →
          findKey (inputs.foldl (resolveStep outputs) acc) m.targetVar =
            findKey acc m.targetVar)) := by
  intro inputs
  induction inputs with
  | nil => intro acc m hm; exact absurd hm (List.not_mem_nil m)
  | cons i rest ih =>
    intro acc m hm hnd
    simp only [List.map_cons, List.nodup_cons] at hnd
    rcases List.mem_cons.mp hm with heq | hmem
    · subst heq
      constructor
      · intro v hv
        rw [List.foldl_cons, fold_resolve_no_target outputs m.targetVar rest _ hnd.1]
        unfold resolveStep
        rw [hv]
        exact findKey_insertKey_self _ _ _
      · intro hv
        rw [List.foldl_cons, fold_resolve_no_target outputs m.targetVar rest _ hnd.1]
        unfold resolveStep
        rw [hv]
    · have hne : m.targetVar ≠ i.targetVar := by
        intro h
        exact hnd.1 (h ▸ List.mem_map_of_mem InputMapping.targetVar hmem)
      have hacc : findKey (resolveStep outputs acc i) m.targetVar =
          findKey acc m.targetVar := by
        unfold resolveStep
        cases findKey ((findKey outputs i.sourceWorkspace).getD []) i.sourceOutput with
        | none => rfl
        | some v => exact findKey_insertKey_ne _ _ _ _ hne
      have := ih (resolveStep outputs acc i) m hmem hnd.2
      exact ⟨fun v hv => by rw [List.foldl_cons]; exact this.1 v hv,
        fun hv => by rw [List.foldl_cons, this.2 hv, hacc]⟩

/-- In every branch, `startWorkspace` dispatches the workspace with its
extra vars resolved against the stored outputs, recording one launch. -/
theorem startWorkspaceModel_launches (runID : String) (signalOk : String → Bool)
    (depths : List (String × Int)) (seen : List String) (st : OrchState)
    (ws : WorkspaceConfig) :
    ∃ k, (startWorkspaceModel runID signalOk depths seen st ws).launches =
        st.launches ++ [⟨resolveExtraVars ws st.outputs, k, seen⟩] ∧
      k ≠ .startupRoot := by
  unfold startWorkspaceModel
  generalize resolveExtraVars ws st.outputs = w
  cases hd : w.dependsOn with
  | nil =>
    refine ⟨.fallbackRoot, ?_, by simp⟩
    simp [startWorkspaceDispatch, hd, rootLaunch]
  | cons d0 rest =>
    by_cases hs : signalOk w.name
    · refine ⟨.hosted (pickHost depths d0 w.dependsOn), ?_, by simp⟩
      simp [startWorkspaceDispatch, hd, hs]
    · refine ⟨.fallbackRoot, ?_, by simp⟩
      simp [startWorkspaceDispatch, hd, hs, rootLaunch]

/-- Counterexample to claim C3 as stated: with two input mappings
sharing a target variable, the later mapping wins, so the earlier
mapping's value is not what the executor receives even though it is
present in the source outputs. -/
theorem input_mapping_duplicate_target_counterexample :
    (⟨"a", "o1", "t"⟩ : InputMapping) ∈
      ({ name := "app", dir := "/w/app", dependsOn := ["a"],
         inputs := [⟨"a", "o1", "t"⟩, ⟨"a", "o2", "t"⟩] } : WorkspaceConfig).inputs ∧
    findKey ((findKey [("a", [("o1", JValue.str "first"), ("o2", JValue.str "second")])]
        "a").getD []) "o1" = some (.str "first") ∧
    (startWorkspaceModel "run" (fun _ => true) [] ["a"]
        { outputs := [("a", [("o1", JValue.str "first"), ("o2", JValue.str "second")])] }
        { name := "app", dir := "/w/app", dependsOn := ["a"],
          inputs := [⟨"a", "o1", "t"⟩, ⟨"a", "o2", "t"⟩] }).launches.map
        (fun ev => ev.ws.extraVars) = [[("t", JValue.str "second")]] ∧
    JValue.str "second" ≠ JValue.str "first" := by
  refine ⟨by simp, rfl, rfl, by simp⟩

/-- Claim C3 as amended: for every input mapping `(src, out, tgt)` of a
workspace whose mappings have pairwise distinct target variables and
whose extra vars start empty, the orchestrator dispatches the workspace
with `extraVars[tgt]` equal to the stored output value (JSON type
preserved) when present, and with `tgt` unset when absent. -/
theorem input_mapping_resolution (runID : String) (signalOk : String → Bool)
    (depths : List (String × Int)) (seen : List String) (st : OrchState)
    (ws : WorkspaceConfig) (m : InputMapping)
    (hm : m ∈ ws.inputs)
    (hnd : (ws.inputs.map InputMapping.targetVar).Nodup)
    (hinit : ws.extraVars = []) :
    ∃ ev, (startWorkspaceModel runID signalOk depths seen st ws).launches =
        st.launches ++ [ev] ∧ ev.ws.name = ws.name ∧
      (∀ v, findKey ((findKey st.outputs m.sourceWorkspace).getD []) m.sourceOutput =
          some v → findKey ev.ws.extraVars m.targetVar = some v) ∧
      (findKey ((findKey st.outputs m.sourceWorkspace).getD []) m.sourceOutput =
          none → findKey ev.ws.extraVars m.targetVar = none) := by
  obtain ⟨k, hl, -⟩ := startWorkspaceModel_launches runID signalOk depths seen st ws
  refine ⟨⟨resolveExtraVars ws st.outputs, k, seen⟩, hl, ?_, ?_, ?_⟩
  · unfold resolveExtraVars
    split <;> rfl
  · intro v hv
    rw [resolveExtraVars_eq_fold, hinit]
    exact (fold_resolve_spec st.outputs ws.inputs [] m hm hnd).1 v hv
  · intro hv
    rw [resolveExtraVars_eq_fold, hinit,
      (fold_resolve_spec st.outputs ws.inputs [] m hm hnd).2 hv]
    rfl

/-- Witness for the amended C3 at a concrete input: one present and one
absent source value. -/
theorem input_mapping_resolution_witness :
    (∃ ev, (startWorkspaceModel "run" (fun _ => true) [] ["vpc"]
        { outputs := [("vpc", [("vpc_id", JValue.str "vpc-1")])] }
        { name := "subnets", dir := "/w/subnets", dependsOn := ["vpc"],
          inputs := [⟨"vpc", "vpc_id", "vpc_id"⟩, ⟨"vpc", "cidr", "cidr_block"⟩] }).launches =
        ({ outputs := [("vpc", [("vpc_id", JValue.str "vpc-1")])] } : OrchState).launches ++
          [ev] ∧
      ev.ws.name = "subnets" ∧
      (∀ v, findKey ((findKey [("vpc", [("vpc_id", JValue.str "vpc-1")])] "vpc").getD [])
          "vpc_id" = some v → findKey ev.ws.extraVars "vpc_id" = some v) ∧
      (findKey ((findKey [("vpc", [("vpc_id", JValue.str "vpc-1")])] "vpc").getD [])
          "vpc_id" = none → findKey ev.ws.extraVars "vpc_id" = none)) ∧
    (∃ ev, (startWorkspaceModel "run" (fun _ => true) [] ["vpc"]
        { outputs := [("vpc", [("vpc_id", JValue.str "vpc-1")])] }
        { name := "subnets", dir := "/w/subnets", dependsOn := ["vpc"],
          inputs := [⟨"vpc", "vpc_id", "vpc_id"⟩, ⟨"vpc", "cidr", "cidr_block"⟩] }).launches =
        ({ outputs := [("vpc", [("vpc_id", JValue.str "vpc-1")])] } : OrchState).launches ++
          [ev] ∧
      ev.ws.name = "subnets" ∧
      (∀ v, findKey ((findKey [("vpc", [("vpc_id", JValue.str "vpc-1")])] "vpc").getD [])
          "cidr" = some v → findKey ev.ws.extraVars "cidr_block" = some v) ∧
      (findKey ((findKey [("vpc", [("vpc_id", JValue.str "vpc-1")])] "vpc").getD [])
          "cidr" = none → findKey ev.ws.extraVars "cidr_block" = none)) :=
  ⟨input_mapping_resolution "run" (fun _ => true) [] ["vpc"] _ _
      ⟨"vpc", "vpc_id", "vpc_id"⟩ (by simp) (by simp) rfl,
    input_mapping_resolution "run" (fun _ => true) [] ["vpc"] _ _
      ⟨"vpc", "cidr", "cidr_block"⟩ (by simp) (by simp) rfl⟩

theorem resolveExtraVars_dependsOn (ws : WorkspaceConfig)
    (outputs : List (String × List (String × JValue))) :
    (resolveExtraVars ws outputs).dependsOn = ws.dependsOn := by
  unfold resolveExtraVars
  split <;> rfl

theorem startWorkspaceModel_completed (runID : String) (signalOk : String → Bool)
    (depths : List (String × Int)) (seen : List String) (st : OrchState)
    (ws : WorkspaceConfig) :
    (startWorkspaceModel runID signalOk depths seen st ws).completed = st.completed := by
  unfold startWorkspaceModel
  generalize resolveExtraVars ws st.outputs = w
  cases hd : w.dependsOn with
  | nil => simp [startWorkspaceDispatch, hd, rootLaunch]
  | cons d0 rest =>
    by_cases hs : signalOk w.name <;>
      simp [startWorkspaceDispatch, hd, hs, rootLaunch]

theorem startWorkspaceModel_outputs (runID : String) (signalOk : String → Bool)
    (depths : List (String × Int)) (seen : List String) (st : OrchState)
    (ws : WorkspaceConfig) :
    (startWorkspaceModel runID signalOk depths seen st ws).outputs = st.outputs := by
  unfold startWorkspaceModel
  generalize resolveExtraVars ws st.outputs = w
  cases hd : w.dependsOn with
  | nil => simp [startWorkspaceDispatch, hd, rootLaunch]
  | cons d0 rest =>
    by_cases hs : signalOk w.name <;>
      simp [startWorkspaceDispatch, hd, hs, rootLaunch]

theorem readyScan_cons (w : WorkspaceConfig) (rest : List WorkspaceConfig)
    (runID : String) (signalOk : String → Bool) (depths : List (String × Int))
    (seen : List String) (st : OrchState) :
    readyScan (w :: rest) runID signalOk depths seen st =
      readyScan rest runID signalOk depths seen
        (scanStep runID signalOk depths seen st w) := rfl

theorem handleFinished_eq_scan (cfgWs : List WorkspaceConfig) (runID : String)
    (signalOk : String → Bool) (depths : List (String × Int)) (st : OrchState)
    (sig : WorkspaceFinishedSig) (seen : List String) :
    handleFinished cfgWs runID signalOk depths st sig seen =
      readyScan cfgWs runID signalOk depths seen
        { st with
          completed := insertName st.completed sig.name
          outputs := insertKey st.outputs sig.name (sig.outputs.getD []) } := rfl

/-- The readiness scan leaves `completed` untouched and appends only
launch events whose dependencies were all completed beforehand. -/
theorem readyScan_spec (runID : String)
    (signalOk : String → Bool) (depths : List (String × Int))
    (seen : List String) :
    ∀ (cfgWs : List WorkspaceConfig) (st : OrchState),
      (readyScan cfgWs runID signalOk depths seen st).completed = st.completed ∧
      ∃ tail, (readyScan cfgWs runID signalOk depths seen st).launches =
          st.launches ++ tail ∧
        ∀ ev ∈ tail, ev.seen = seen ∧ ev.kind ≠ .startupRoot ∧
          ∀ d ∈ ev.ws.dependsOn, d ∈ st.completed := by
  intro cfgWs
  induction cfgWs with
  | nil => intro st; exact ⟨rfl, [], by simp [readyScan], by simp⟩
  | cons w rest ih =>
    intro st
    rw [readyScan_cons]
    by_cases h1 : st.completed.contains w.name || isRunning w.name st.running
    · rw [show scanStep runID signalOk depths seen st w = st from by
        unfold scanStep; rw [if_pos h1]]
      exact ih st
    · by_cases h2 : allDependenciesMet w st.completed
      · rw [show scanStep runID signalOk depths seen st w =
          startWorkspaceModel runID signalOk depths seen st w from by
          unfold scanStep; rw [if_neg h1, if_pos h2]]
        obtain ⟨hc, tail, hl, htail⟩ := ih (startWorkspaceModel runID signalOk depths seen st w)
        obtain ⟨k, hk, hknot⟩ := startWorkspaceModel_launches runID signalOk depths seen st w
        refine ⟨hc.trans (startWorkspaceModel_completed _ _ _ _ _ _), ?_⟩
        refine ⟨⟨resolveExtraVars w st.outputs, k, seen⟩ :: tail, ?_, ?_⟩
        · rw [hl, hk, List.append_assoc]
          rfl
        · intro ev hev
          rcases List.mem_cons.mp hev with heq | hmem
          · subst heq
            refine ⟨rfl, hknot, ?_⟩
            intro d hd
            rw [resolveExtraVars_dependsOn] at hd
            have := List.all_eq_true.mp h2 d hd
            simpa using this
          · obtain ⟨hseen, hkind, hdeps⟩ := htail ev hmem
            refine ⟨hseen, hkind, ?_⟩
            intro d hd
            have := hdeps d hd
            rwa [startWorkspaceModel_completed] at this
      · rw [show scanStep runID signalOk depths seen st w = st from by
          unfold scanStep; rw [if_neg h1, if_neg h2]]
        exact ih st

theorem insertName_subset (c : List String) (n : String) (seen : List String)
    (hsub : ∀ m ∈ c, m ∈ seen) (hn : n ∈ seen) :
    ∀ m ∈ insertName c n, m ∈ seen := by
  intro m hm
  unfold insertName at hm
  by_cases h : n ∈ c
  · rw [if_pos h] at hm; exact hsub m hm
  · rw [if_neg h] at hm
    rcases List.mem_append.mp hm with h1 | h1
    · exact hsub m h1
    · rw [List.mem_singleton.mp h1]; exact hn

/-- Over any signal schedule, the completion loop only appends launch
events that are not startup launches and whose workspace's dependencies
had all delivered their `workspace-finished` signal beforehand. -/
theorem orchLoop_launches (cfgWs : List WorkspaceConfig) (runID : String)
    (signalOk : String → Bool) (depths : List (String × Int)) :
    ∀ (schedule : List WorkspaceFinishedSig) (st : OrchState) (seen : List String),
      (∀ n ∈ st.completed, n ∈ seen) →
      ∃ tail, (orchLoop cfgWs runID signalOk depths st schedule seen).launches =
          st.launches ++ tail ∧
        ∀ ev ∈ tail, ev.kind ≠ .startupRoot ∧ ∀ d ∈ ev.ws.dependsOn, d ∈ ev.seen := by
  intro schedule
  induction schedule with
  | nil => intro st seen _; exact ⟨[], by simp [orchLoop], by simp⟩
  | cons sig rest ih =>
    intro st seen hsub
    by_cases hcond : st.completed.length < cfgWs.length
    · rw [show orchLoop cfgWs runID signalOk depths st (sig :: rest) seen =
        orchLoop cfgWs runID signalOk depths
          (handleFinished cfgWs runID signalOk depths st sig (seen ++ [sig.name]))
          rest (seen ++ [sig.name]) from by simp [orchLoop, hcond]]
      have hscan := readyScan_spec runID signalOk depths (seen ++ [sig.name]) cfgWs
        { st with
          completed := insertName st.completed sig.name
          outputs := insertKey st.outputs sig.name (sig.outputs.getD []) }
      obtain ⟨hc, tail1, hl1, htail1⟩ := hscan
      have hsub' : ∀ n ∈ (handleFinished cfgWs runID signalOk depths st sig
          (seen ++ [sig.name])).completed, n ∈ seen ++ [sig.name] := by
        rw [handleFinished_eq_scan, hc]
        exact insertName_subset st.completed sig.name (seen ++ [sig.name])
          (fun m hm => List.mem_append_left _ (hsub m hm))
          (List.mem_append_right _ (List.mem_singleton_self _))
      obtain ⟨tail2, hl2, htail2⟩ := ih
        (handleFinished cfgWs runID signalOk depths st sig (seen ++ [sig.name]))
        (seen ++ [sig.name]) hsub'
      refine ⟨tail1 ++ tail2, ?_, ?_⟩
      · rw [hl2, handleFinished_eq_scan, hl1]
        simp [List.append_assoc]
      · intro ev hev
        rcases List.mem_append.mp hev with h1 | h1
        · obtain ⟨hseen, hkind, hdeps⟩ := htail1 ev h1
          refine ⟨hkind, fun d hd => ?_⟩
          rw [hseen]
          have := hdeps d hd
          exact insertName_subset st.completed sig.name (seen ++ [sig.name])
            (fun m hm => List.mem_append_left _ (hsub m hm))
            (List.mem_append_right _ (List.mem_singleton_self _)) d this
        · exact htail2 ev h1
    · rw [show orchLoop cfgWs runID signalOk depths st (sig :: rest) seen = st from by
        simp [orchLoop, hcond]]
      exact ⟨[], by simp, by simp⟩

/-- The orchestrator's startup fold launches exactly the dependency-free
workspaces, in configured order, with empty `seen`, and leaves
`completed` untouched. -/
theorem startupFold_spec (runID : String) :
    ∀ (cfgWs : List WorkspaceConfig) (st : OrchState),
      (cfgWs.foldl (startupStep runID) st).completed = st.completed ∧
      (cfgWs.foldl (startupStep runID) st).launches =
        st.launches ++ (cfgWs.filter (fun ws => ws.dependsOn.length = 0)).map
          (fun ws => ⟨ws, .startupRoot, []⟩) := by
  intro cfgWs
  induction cfgWs with
  | nil => intro st; exact ⟨rfl, by simp⟩
  | cons w rest ih =>
    intro st
    rw [List.foldl_cons]
    by_cases h : w.dependsOn.length = 0
    · rw [show startupStep runID st w = rootLaunch runID .startupRoot [] st w from by
        unfold startupStep; rw [if_pos h]]
      obtain ⟨hc, hl⟩ := ih (rootLaunch runID .startupRoot [] st w)
      refine ⟨hc.trans rfl, ?_⟩
      rw [hl, List.filter_cons, decide_eq_true h, if_pos rfl, List.map_cons]
      simp [rootLaunch, List.append_assoc]
    · rw [show startupStep runID st w = st from by
        unfold startupStep; rw [if_neg h]]
      obtain ⟨hc, hl⟩ := ih st
      refine ⟨hc, ?_⟩
      rw [hl, List.filter_cons, decide_eq_false h, if_neg Bool.false_ne_true]

/-- The orchestrator state after startup and the completion loop, for a
config that passed validation. -/
def finalOrchState (cwd runID : String) (signalOk : String → Bool)
    (schedule : List WorkspaceFinishedSig) (rawConfig : InfrastructureConfig) :
    OrchState :=
  let ws := (NormalizeInfrastructureConfig cwd rawConfig).workspaces
  orchLoop ws runID signalOk (CalculateDepths ws)
    (ws.foldl (startupStep runID) {}) schedule []

theorem ParentWorkflowModel_error (cwd runID : String) (signalOk : String → Bool)
    (schedule : List WorkspaceFinishedSig) (resolveRoot : String → Except String Unit)
    (rawConfig : InfrastructureConfig) (e : VError)
    (h : ValidateInfrastructureConfig rawConfig = .error e) :
    ParentWorkflowModel cwd runID signalOk schedule resolveRoot rawConfig =
      { outcome := .returns (.error (.config e)), launches := [], final := {} } := by
  simp [ParentWorkflowModel, h]

theorem ParentWorkflowModel_ok_launches (cwd runID : String)
    (signalOk : String → Bool) (schedule : List WorkspaceFinishedSig)
    (resolveRoot : String → Except String Unit) (rawConfig : InfrastructureConfig)
    (h : ValidateInfrastructureConfig rawConfig = .ok ()) :
    (ParentWorkflowModel cwd runID signalOk schedule resolveRoot rawConfig).launches =
      (finalOrchState cwd runID signalOk schedule rawConfig).launches := by
  simp only [ParentWorkflowModel, h, finalOrchState]
  split
  · rfl
  · split <;> rfl

theorem ParentWorkflowModel_ok_final (cwd runID : String)
    (signalOk : String → Bool) (schedule : List WorkspaceFinishedSig)
    (resolveRoot : String → Except String Unit) (rawConfig : InfrastructureConfig)
    (h : ValidateInfrastructureConfig rawConfig = .ok ()) :
    (ParentWorkflowModel cwd runID signalOk schedule resolveRoot rawConfig).final =
      finalOrchState cwd runID signalOk schedule rawConfig := by
  simp only [ParentWorkflowModel, h, finalOrchState]
  split
  · rfl
  · split <;> rfl

theorem ParentWorkflowModel_ok_outcome (cwd runID : String)
    (signalOk : String → Bool) (schedule : List WorkspaceFinishedSig)
    (resolveRoot : String → Except String Unit) (rawConfig : InfrastructureConfig)
    (h : ValidateInfrastructureConfig rawConfig = .ok ())
    (hdone : ¬ (finalOrchState cwd runID signalOk schedule rawConfig).completed.length <
      (NormalizeInfrastructureConfig cwd rawConfig).workspaces.length)
    (hfe : firstRootError resolveRoot
      (finalOrchState cwd runID signalOk schedule rawConfig).rootFutures = none) :
    (ParentWorkflowModel cwd runID signalOk schedule resolveRoot rawConfig).outcome =
      .returns (.ok ()) := by
  simp only [ParentWorkflowModel, finalOrchState, h] at hdone hfe ⊢
  rw [if_neg hdone, hfe]

/-- Claim C2: in every execution of `ParentWorkflow` on a valid config,
no workspace's executor is launched (as a root child or via a
`start-child` signal to a host) until every workspace in its
`dependsOn` list has delivered its `workspace-finished` signal, and the
startup launches are exactly the dependency-free workspaces in
configured order. -/
theorem executors_launched_after_dependencies (cwd runID : String)
    (signalOk : String → Bool) (schedule : List WorkspaceFinishedSig)
    (resolveRoot : String → Except String Unit)
    (rawConfig : InfrastructureConfig) :
    (∀ ev ∈ (ParentWorkflowModel cwd runID signalOk schedule resolveRoot
        rawConfig).launches, ∀ d ∈ ev.ws.dependsOn, d ∈ ev.seen) ∧
    (ValidateInfrastructureConfig rawConfig = .ok () →
      ((ParentWorkflowModel cwd runID signalOk schedule resolveRoot
          rawConfig).launches.filter
        (fun ev => ev.kind = LaunchKind.startupRoot)).map (fun ev => ev.ws.name) =
        ((NormalizeInfrastructureConfig cwd rawConfig).workspaces.filter
          (fun ws => ws.dependsOn.length = 0)).map (fun ws => ws.name)) := by
  rcases hval : ValidateInfrastructureConfig rawConfig with e | u
  · rw [ParentWorkflowModel_error cwd runID signalOk schedule resolveRoot rawConfig e hval]
    refine ⟨by simp, fun hok => absurd hok (by simp)⟩
  · cases u
    have hlaunch := ParentWorkflowModel_ok_launches cwd runID signalOk schedule
      resolveRoot rawConfig hval
    have hstart := startupFold_spec runID
      (NormalizeInfrastructureConfig cwd rawConfig).workspaces ({} : OrchState)
    have hsub : ∀ n ∈ ((NormalizeInfrastructureConfig cwd rawConfig).workspaces.foldl
        (startupStep runID) {}).completed, n ∈ ([] : List String) := by
      rw [hstart.1]; intro n hn; exact absurd hn (List.not_mem_nil n)
    obtain ⟨tail, htail_eq, htail⟩ := orchLoop_launches
      (NormalizeInfrastructureConfig cwd rawConfig).workspaces runID signalOk
      (CalculateDepths (NormalizeInfrastructureConfig cwd rawConfig).workspaces)
      schedule
      ((NormalizeInfrastructureConfig cwd rawConfig).workspaces.foldl
        (startupStep runID) {})
      [] hsub
    have hfinal : (finalOrchState cwd runID signalOk schedule rawConfig).launches =
        ((NormalizeInfrastructureConfig cwd rawConfig).workspaces.filter
          (fun ws => ws.dependsOn.length = 0)).map
            (fun ws => ⟨ws, .startupRoot, []⟩) ++ tail := by
      rw [finalOrchState]
      rw [htail_eq, hstart.2]
      simp
    constructor
    · intro ev hev d hd
      rw [hlaunch, hfinal] at hev
      rcases List.mem_append.mp hev with h1 | h1
      · obtain ⟨ws, hws, hevw⟩ := List.mem_map.mp h1
        have : ws.dependsOn.length = 0 := by
          have := List.of_mem_filter hws
          simpa using this
        rw [← hevw] at hd
        simp only at hd
        rw [List.length_eq_zero.mp this] at hd
        exact absurd hd (List.not_mem_nil d)
      · exact (htail ev h1).2 d hd
    · intro _
      rw [hlaunch, hfinal, List.filter_append]
      have h1 : (((NormalizeInfrastructureConfig cwd rawConfig).workspaces.filter
          (fun ws => ws.dependsOn.length = 0)).map
            (fun ws => (⟨ws, .startupRoot, []⟩ : LaunchEvent))).filter
          (fun ev => ev.kind = LaunchKind.startupRoot) =
          ((NormalizeInfrastructureConfig cwd rawConfig).workspaces.filter
            (fun ws => ws.dependsOn.length = 0)).map
              (fun ws => (⟨ws, .startupRoot, []⟩ : LaunchEvent)) := by
        rw [List.filter_eq_self]
        intro ev hev
        obtain ⟨ws, _, hevw⟩ := List.mem_map.mp hev
        rw [← hevw]
        simp
      have h2 : tail.filter (fun ev => ev.kind = LaunchKind.startupRoot) = [] := by
        rw [List.filter_eq_nil_iff]
        intro ev hev
        have := (htail ev hev).1
        simpa using this
      rw [h1, h2, List.append_nil, List.map_map]
      rfl

/-- Witness for C2 at a concrete input: a two-workspace chain with a
delivered completion signal for the root. -/
theorem executors_launched_after_dependencies_witness :
    ((∀ ev ∈ (ParentWorkflowModel "/cwd" "run" (fun _ => true)
        [⟨"vpc", some [("vpc_id", JValue.str "v")]⟩, ⟨"subnets", some []⟩]
        (fun _ => .ok ())
        { workspaces := [
            { name := "vpc", dir := "/w/vpc" },
            { name := "subnets", dir := "/w/subnets", dependsOn := ["vpc"] }] }).launches,
      ∀ d ∈ ev.ws.dependsOn, d ∈ ev.seen) ∧
    (ValidateInfrastructureConfig
        { workspaces := [
            { name := "vpc", dir := "/w/vpc" },
            { name := "subnets", dir := "/w/subnets", dependsOn := ["vpc"] }] } = .ok () →
      ((ParentWorkflowModel "/cwd" "run" (fun _ => true)
          [⟨"vpc", some [("vpc_id", JValue.str "v")]⟩, ⟨"subnets", some []⟩]
          (fun _ => .ok ())
          { workspaces := [
              { name := "vpc", dir := "/w/vpc" },
              { name := "subnets", dir := "/w/subnets", dependsOn := ["vpc"] }] }).launches.filter
        (fun ev => ev.kind = LaunchKind.startupRoot)).map (fun ev => ev.ws.name) =
        ((NormalizeInfrastructureConfig "/cwd"
          { workspaces := [
              { name := "vpc", dir := "/w/vpc" },
              { name := "subnets", dir := "/w/subnets", dependsOn := ["vpc"] }] }).workspaces.filter
          (fun ws => ws.dependsOn.length = 0)).map (fun ws => ws.name))) :=
  executors_launched_after_dependencies "/cwd" "run" (fun _ => true)
    [⟨"vpc", some [("vpc_id", JValue.str "v")]⟩, ⟨"subnets", some []⟩]
    (fun _ => .ok ())
    { workspaces := [
        { name := "vpc", dir := "/w/vpc" },
        { name := "subnets", dir := "/w/subnets", dependsOn := ["vpc"] }] }

theorem firstRootError_none (resolveRoot : String → Except String Unit) :
    ∀ roots : List String, (∀ n ∈ roots, resolveRoot n = .ok ()) →
      firstRootError resolveRoot roots = none := by
  intro roots
  induction roots with
  | nil => intro _; rfl
  | cons r rest ih =>
    intro h
    unfold firstRootError at ih ⊢
    rw [List.foldl_cons, h r (List.mem_cons_self _ _)]
    exact ih fun n hn => h n (List.mem_cons_of_mem _ hn)

/-- The two-workspace configuration of the C9 scenario: a root and one
hosted dependent. -/
def hostedFailureConfig : InfrastructureConfig :=
  { workspaces := [
      { name := "vpc", dir := "/w/vpc" },
      { name := "subnets", dir := "/w/subnets", dependsOn := ["vpc"] }] }

/-- The C9 scenario run: the root signals success; the hosted dependent
fails but (per the executor's unconditional `signalParent`) still
signals with nil outputs; `start-child` delivery succeeds; the only
root future resolves ok. -/
def hostedFailureRun : ParentRun :=
  ParentWorkflowModel "/cwd" "run" (fun _ => true)
    [⟨"vpc", some [("vpc_id", .str "v-1")]⟩, ⟨"subnets", none⟩]
    (fun _ => .ok ()) hostedFailureConfig

/-- Claim C9: `ParentWorkflow`'s returned error is determined solely by
the root-child futures it holds. A hosted (non-root) executor that
fails still gets a `workspace-finished` signal recorded, its failure is
only logged by its host, and there are executions where a hosted
executor fails yet `ParentWorkflow` returns success: whenever every
retained root future resolves ok, the outcome is success, and in the
concrete scenario the hosted `subnets` executor fails (signalling nil
outputs), is never a root future, and the orchestration returns nil. -/
theorem parent_error_solely_from_root_futures :
    (∀ (cwd runID : String) (signalOk : String → Bool)
        (schedule : List WorkspaceFinishedSig)
        (resolveRoot : String → Except String Unit)
        (rawConfig : InfrastructureConfig),
      ValidateInfrastructureConfig rawConfig = .ok () →
      ¬ (finalOrchState cwd runID signalOk schedule rawConfig).completed.length <
        (NormalizeInfrastructureConfig cwd rawConfig).workspaces.length →
      (∀ n ∈ (finalOrchState cwd runID signalOk schedule rawConfig).rootFutures,
        resolveRoot n = .ok ()) →
      (ParentWorkflowModel cwd runID signalOk schedule resolveRoot
        rawConfig).outcome = .returns (.ok ())) ∧
    hostedFailureRun.outcome = .returns (.ok ()) ∧
    hostedFailureRun.final.rootFutures = ["vpc"] ∧
    hostedFailureRun.final.completed = ["vpc", "subnets"] ∧
    hostedFailureRun.launches.map (fun ev => (ev.ws.name, ev.kind)) =
      [("vpc", .startupRoot), ("subnets", .hosted "vpc")] ∧
    (TerraformWorkflowModel
        { ownRunID := "run-s", parentID := some "iac-run-vpc", root := some ("orch", "run") }
        { planRes := .ok true, applyRes := .error "boom" }
        { name := "subnets", dir := "/w/subnets", dependsOn := ["vpc"],
          operations := ["init", "validate", "plan", "apply"] }).signals =
      [⟨"subnets", none⟩] ∧
    (TerraformWorkflowHosted
        { ownRunID := "run-v", parentID := some "orch", root := some ("orch", "run") }
        { outputRes := .ok [("vpc_id", .str "v-1")] }
        { name := "vpc", dir := "/w/vpc",
          operations := ["init", "validate", "plan", "apply"] }
        [({ name := "subnets", dir := "/w/subnets" },
          .error "apply failed: boom")]).1.result = .ok [("vpc_id", .str "v-1")] ∧
    (TerraformWorkflowHosted
        { ownRunID := "run-v", parentID := some "orch", root := some ("orch", "run") }
        { outputRes := .ok [("vpc_id", .str "v-1")] }
        { name := "vpc", dir := "/w/vpc",
          operations := ["init", "validate", "plan", "apply"] }
        [({ name := "subnets", dir := "/w/subnets" },
          .error "apply failed: boom")]).2 =
      ["Child workflow failed: apply failed: boom"] := by
  refine ⟨?_, ?_, ?_, ?_, ?_, ?_, ?_, ?_⟩
  · intro cwd runID signalOk schedule resolveRoot rawConfig hval hdone hroots
    exact ParentWorkflowModel_ok_outcome cwd runID signalOk schedule resolveRoot
      rawConfig hval hdone
      (firstRootError_none resolveRoot _ hroots)
  · rfl
  · rfl
  · rfl
  · rfl
  · rfl
  · rfl
  · rfl

/-- Witness for C9's universal part at the concrete scenario inputs. -/
theorem parent_error_solely_from_root_futures_witness :
    (ParentWorkflowModel "/cwd" "run" (fun _ => true)
      [⟨"vpc", some [("vpc_id", .str "v-1")]⟩, ⟨"subnets", none⟩]
      (fun _ => .ok ()) hostedFailureConfig).outcome = .returns (.ok ()) :=
  parent_error_solely_from_root_futures.1 "/cwd" "run" (fun _ => true)
    [⟨"vpc", some [("vpc_id", .str "v-1")]⟩, ⟨"subnets", none⟩]
    (fun _ => .ok ()) hostedFailureConfig rfl (by decide) (fun n _ => rfl)

/-! ### Cycle detection (C6) -/

/-- The direct dependency relation declared by a configuration:
`a` depends on `b` through some workspace named `a`. -/
def cfgEdge (cfg : InfrastructureConfig) (a b : String) : Prop :=
  ∃ ws, ws ∈ cfg.workspaces ∧ ws.name = a ∧ b ∈ ws.dependsOn

/-- A dependency cycle reachable through `dependsOn` (a self-edge is
the one-step case). -/
def HasDependencyCycle (cfg : InfrastructureConfig) : Prop :=
  ∃ n, Relation.TransGen (cfgEdge cfg) n n

/-- The finished list (newest first) is topologically sorted: every
node's dependencies appear later, i.e. finished earlier. -/
def TopoOk (g : String → List String) : List String → Prop
  | [] => True
  | n :: rest => (∀ d ∈ g n, d ∈ rest) ∧ TopoOk g rest

/-- The DFS state invariant: the finished list is a duplicate-free
topological order and is disjoint from the stack. -/
def DInv (g : String → List String) (st : DfsSt) : Prop :=
  TopoOk g st.visited ∧ st.visited.Nodup ∧ ∀ m ∈ st.visited, m ∉ st.visiting

theorem filter_ne_of_not_mem (l : List String) (a : String) (h : a ∉ l) :
    l.filter (fun m => m ≠ a) = l := by
  induction l with
  | nil => rfl
  | cons x rest ih =>
    have hx : x ≠ a := fun hxa => h (hxa ▸ List.mem_cons_self x rest)
    have hrest : a ∉ rest := fun hr => h (List.mem_cons_of_mem x hr)
    rw [List.filter_cons, decide_eq_true hx, if_pos rfl, ih hrest]

theorem dfsFold_ok_visiting (f : DfsSt → String → Except VError DfsSt)
    (hf : ∀ st d st', f st d = .ok st' → st'.visiting = st.visiting) :
    ∀ (ds : List String) (st st' : DfsSt),
      dfsFold f st ds = .ok st' → st'.visiting = st.visiting := by
  intro ds
  induction ds with
  | nil =>
    intro st st' h
    unfold dfsFold at h
    cases h
    rfl
  | cons d rest ih =>
    intro st st' h
    unfold dfsFold at h
    rcases h1 : f st d with e | st1 <;> rw [h1] at h
    · exact absurd h (by simp)
    · exact (ih st1 st' h).trans (hf st d st1 h1)

theorem dfs_ok_visiting (g : String → List String) :
    ∀ (fuel : Nat) (st : DfsSt) (name : String) (st' : DfsSt),
      dfs g fuel st name = .ok st' → st'.visiting = st.visiting := by
  intro fuel
  induction fuel with
  | zero => intro st name st' h; exact absurd h (by simp [dfs])
  | succ fuel ih =>
    intro st name st' h
    unfold dfs at h
    by_cases h1 : name ∈ st.visiting
    · rw [if_pos h1] at h
      exact absurd h (by simp)
    · rw [if_neg h1] at h
      by_cases h2 : name ∈ st.visited
      · rw [if_pos h2] at h
        cases h
        rfl
      · rw [if_neg h2] at h
        rcases hfold : dfsFold (dfs g fuel) { st with visiting := name :: st.visiting }
            (g name) with e | st2 <;> rw [hfold] at h
        · exact absurd h (by simp)
        · cases h
          have hvis : st2.visiting = name :: st.visiting :=
            dfsFold_ok_visiting (dfs g fuel) ih (g name) _ st2 hfold
          show st2.visiting.filter (fun m => m ≠ name) = st.visiting
          rw [hvis, List.filter_cons]
          rw [show decide (¬ name = name) = false by simp]
          rw [if_neg Bool.false_ne_true]
          exact filter_ne_of_not_mem st.visiting name h1

theorem dfsFold_ok_spec (g : String → List String)
    (f : DfsSt → String → Except VError DfsSt)
    (hvis : ∀ st d st', f st d = .ok st' → st'.visiting = st.visiting)
    (hf : ∀ st d st', f st d = .ok st' → DInv g st →
      ((∃ l, st'.visited = l ++ st.visited ∧ ∀ m ∈ l, m ∉ st.visiting) ∧
        DInv g st' ∧ d ∈ st'.visited)) :
    ∀ (ds : List String) (st st' : DfsSt),
      dfsFold f st ds = .ok st' → DInv g st →
      ((∃ l, st'.visited = l ++ st.visited ∧ ∀ m ∈ l, m ∉ st.visiting) ∧
        DInv g st' ∧ ∀ d ∈ ds, d ∈ st'.visited) := by
  intro ds
  induction ds with
  | nil =>
    intro st st' h hinv
    unfold dfsFold at h
    cases h
    exact ⟨⟨[], by simp, by simp⟩, hinv, by simp⟩
  | cons d rest ih =>
    intro st st' h hinv
    unfold dfsFold at h
    rcases h1 : f st d with e | st1 <;> rw [h1] at h
    · exact absurd h (by simp)
    · obtain ⟨⟨l1, hl1, hm1⟩, hinv1, hd1⟩ := hf st d st1 h1 hinv
      obtain ⟨⟨l2, hl2, hm2⟩, hinv2, hd2⟩ := ih st1 st' h hinv1
      have hv1 : st1.visiting = st.visiting := hvis st d st1 h1
      refine ⟨⟨l2 ++ l1, ?_, ?_⟩, hinv2, ?_⟩
      · rw [hl2, hl1, List.append_assoc]
      · intro m hm
        rcases List.mem_append.mp hm with hm' | hm'
        · have := hm2 m hm'
          rwa [hv1] at this
        · exact hm1 m hm'
      · intro x hx
        rcases List.mem_cons.mp hx with hx' | hx'
        · subst hx'
          rw [hl2]
          exact List.mem_append_right l2 hd1
        · exact hd2 x hx'

/-- On success, `dfs` extends the finished list with names that were
not on the stack, preserves the invariant, and finishes its argument. -/
theorem dfs_ok_spec (g : String → List String) :
    ∀ (fuel : Nat) (st : DfsSt) (name : String) (st' : DfsSt),
      dfs g fuel st name = .ok st' → DInv g st →
      ((∃ l, st'.visited = l ++ st.visited ∧ ∀ m ∈ l, m ∉ st.visiting) ∧
        DInv g st' ∧ name ∈ st'.visited) := by
  intro fuel
  induction fuel with
  | zero => intro st name st' h; exact absurd h (by simp [dfs])
  | succ fuel ih =>
    intro st name st' h hinv
    unfold dfs at h
    by_cases h1 : name ∈ st.visiting
    · rw [if_pos h1] at h
      exact absurd h (by simp)
    · rw [if_neg h1] at h
      by_cases h2 : name ∈ st.visited
      · rw [if_pos h2] at h
        cases h
        exact ⟨⟨[], by simp, by simp⟩, hinv, h2⟩
      · rw [if_neg h2] at h
        rcases hfold : dfsFold (dfs g fuel) { st with visiting := name :: st.visiting }
            (g name) with e | st2 <;> rw [hfold] at h
        · exact absurd h (by simp)
        · cases h
          have hinv1 : DInv g { st with visiting := name :: st.visiting } := by
            refine ⟨hinv.1, hinv.2.1, ?_⟩
            intro m hm
            intro hmem
            rcases List.mem_cons.mp hmem with hmn | hmem'
            · exact h2 (hmn ▸ hm)
            · exact hinv.2.2 m hm hmem'
          obtain ⟨⟨l, hl, hml⟩, hinv2, hdeps⟩ :=
            dfsFold_ok_spec g (dfs g fuel) (dfs_ok_visiting g fuel) (ih)
              (g name) _ st2 hfold hinv1
          have hvis2 : st2.visiting = name :: st.visiting :=
            dfsFold_ok_visiting (dfs g fuel) (dfs_ok_visiting g fuel) (g name) _ st2 hfold
          have hnamel : name ∉ l := fun hn =>
            (hml name hn) (List.mem_cons_self name st.visiting)
          have hname2 : name ∉ st2.visited := by
            rw [hl]
            intro hmem
            rcases List.mem_append.mp hmem with hm' | hm'
            · exact hnamel hm'
            · exact h2 hm'
          have hvis' : st2.visiting.filter (fun m => m ≠ name) = st.visiting := by
            rw [hvis2, List.filter_cons]
            rw [show decide (¬ name = name) = false by simp]
            rw [if_neg Bool.false_ne_true]
            exact filter_ne_of_not_mem st.visiting name h1
          refine ⟨⟨name :: l, ?_, ?_⟩, ⟨?_, ?_, ?_⟩, ?_⟩
          · show name :: st2.visited = (name :: l) ++ st.visited
            rw [hl]
            rfl
          · intro m hm
            rcases List.mem_cons.mp hm with hm' | hm'
            · exact hm' ▸ h1
            · intro hmem
              exact (hml m hm') (List.mem_cons_of_mem name hmem)
          · show TopoOk g (name :: st2.visited)
            exact ⟨hdeps, hinv2.1⟩
          · show (name :: st2.visited).Nodup
            exact List.nodup_cons.mpr ⟨hname2, hinv2.2.1⟩
          · show ∀ m ∈ name :: st2.visited, m ∉ st2.visiting.filter (fun m => m ≠ name)
            rw [hvis']
            intro m hm
            rcases List.mem_cons.mp hm with hm' | hm'
            · exact hm' ▸ h1
            · intro hmem
              exact hinv2.2.2 m hm' (hvis2 ▸ List.mem_cons_of_mem name hmem)
          · exact List.mem_cons_self name st2.visited

/-- Position from the front of a list (first occurrence). -/
def rankIn : List String → String → Nat
  | [], _ => 0
  | x :: rest, n => if x = n then 0 else rankIn rest n + 1

theorem topoOk_edge_rank (g : String → List String) :
    ∀ l : List String, TopoOk g l → l.Nodup →
      ∀ n ∈ l, ∀ d ∈ g n, d ∈ l ∧ rankIn l n < rankIn l d := by
  intro l
  induction l with
  | nil => intro _ _ n hn; exact absurd hn (List.not_mem_nil n)
  | cons x rest ih =>
    intro ht hnd n hn d hd
    obtain ⟨hx, hrest⟩ := ht
    obtain ⟨hxmem, hndrest⟩ := List.nodup_cons.mp hnd
    rcases List.mem_cons.mp hn with hnx | hnr
    · subst hnx
      have hdr : d ∈ rest := hx d hd
      have hdn : d ≠ n := fun hdn => hxmem (hdn ▸ hdr)
      refine ⟨List.mem_cons_of_mem n hdr, ?_⟩
      unfold rankIn
      rw [if_pos rfl, if_neg (fun h => hdn h.symm)]
      exact Nat.succ_pos _
    · obtain ⟨hdr, hlt⟩ := ih hrest hndrest n hnr d hd
      have hnx : x ≠ n := fun h => hxmem (h ▸ hnr)
      have hdx : x ≠ d := fun h => hxmem (h ▸ hdr)
      refine ⟨List.mem_cons_of_mem x hdr, ?_⟩
      unfold rankIn
      rw [if_neg hnx, if_neg hdx]
      exact Nat.succ_lt_succ hlt

theorem topoOk_reach (g : String → List String) (l : List String)
    (ht : TopoOk g l) (hnd : l.Nodup) :
    ∀ n m, Relation.TransGen (fun a b => b ∈ g a) n m → n ∈ l →
      m ∈ l ∧ rankIn l n < rankIn l m := by
  intro n m htg
  induction htg with
  | single h =>
    intro hn
    exact topoOk_edge_rank g l ht hnd n hn _ h
  | tail htg' h ih =>
    intro hn
    obtain ⟨hb, hlt⟩ := ih hn
    obtain ⟨hc, hlt2⟩ := topoOk_edge_rank g l ht hnd _ hb _ h
    exact ⟨hc, hlt.trans hlt2⟩

theorem topoOk_no_cycle (g : String → List String) (l : List String)
    (ht : TopoOk g l) (hnd : l.Nodup) (n : String) (hn : n ∈ l) :
    ¬ Relation.TransGen (fun a b => b ∈ g a) n n := fun h =>
  lt_irrefl _ (topoOk_reach g l ht hnd n n h hn).2

/-- What the structural pass guarantees on success: existing bindings
persist, every listed workspace is found under its name, the index's
keys come from the accumulator or the list, the listed names are
duplicate-free, and none of them was already bound. -/
theorem buildIndex_spec :
    ∀ (l : List WorkspaceConfig) (acc idx : List (String × WorkspaceConfig)),
      buildIndex l acc = .ok idx →
      ((∀ k v, findKey acc k = some v → findKey idx k = some v) ∧
        (∀ ws ∈ l, findKey idx ws.name = some ws) ∧
        (∀ k, (findKey idx k).isSome → (findKey acc k).isSome ∨
          k ∈ l.map WorkspaceConfig.name) ∧
        (l.map WorkspaceConfig.name).Nodup ∧
        (∀ n ∈ l.map WorkspaceConfig.name, (findKey acc n).isSome = false)) := by
  intro l
  induction l with
  | nil =>
    intro acc idx h
    unfold buildIndex at h
    cases h
    exact ⟨fun k v hv => hv, by simp, fun k hk => Or.inl hk, by simp, by simp⟩
  | cons ws rest ih =>
    intro acc idx h
    unfold buildIndex at h
    by_cases g1 : trimSpace ws.name = ""
    · rw [if_pos g1] at h; exact absurd h (by simp)
    · rw [if_neg g1] at h
      by_cases g2 : (findKey acc ws.name).isSome
      · rw [if_pos g2] at h; exact absurd h (by simp)
      · rw [if_neg g2] at h
        by_cases g3 : trimSpace ws.dir = ""
        · rw [if_pos g3] at h; exact absurd h (by simp)
        · rw [if_neg g3] at h
          by_cases g4 : isSupportedKind (defaultKind ws.kind) = true
          · rw [if_neg (show ¬ ((!isSupportedKind (defaultKind ws.kind)) = true) by
              simp [g4])] at h
            obtain ⟨p1, p2, p3, p4, p5⟩ := ih (insertKey acc ws.name ws) idx h
            have haccnone : findKey acc ws.name = none :=
              Option.not_isSome_iff_eq_none.mp g2
            have hself : findKey (insertKey acc ws.name ws) ws.name = some ws :=
              findKey_insertKey_self acc ws.name ws
            refine ⟨?_, ?_, ?_, ?_, ?_⟩
            · intro k v hv
              have hk : k ≠ ws.name := fun hk => by
                rw [hk, haccnone] at hv
                exact absurd hv (by simp)
              exact p1 k v (by rwa [findKey_insertKey_ne acc ws.name k ws hk])
            · intro w hw
              rcases List.mem_cons.mp hw with hw' | hw'
              · subst hw'
                exact p1 w.name w hself
              · exact p2 w hw'
            · intro k hk
              rcases p3 k hk with hk' | hk'
              · by_cases hkn : k = ws.name
                · exact Or.inr (by rw [hkn]; simp)
                · rw [findKey_insertKey_ne acc ws.name k ws hkn] at hk'
                  exact Or.inl hk'
              · exact Or.inr (List.mem_cons_of_mem _ hk')
            · rw [List.map_cons]
              refine List.nodup_cons.mpr ⟨?_, p4⟩
              intro hmem
              have := p5 ws.name hmem
              rw [hself] at this
              exact absurd this (by simp)
            · intro n hn
              rcases List.mem_cons.mp hn with hn' | hn'
              · subst hn'
                rw [haccnone]
                rfl
              · have h5 := p5 n hn'
                by_cases hkn : n = ws.name
                · rw [hkn, hself] at h5
                  exact absurd h5 (by simp)
                · rwa [findKey_insertKey_ne acc ws.name n ws hkn] at h5
          · rw [if_pos (show (!isSupportedKind (defaultKind ws.kind)) = true by
              simp [g4])] at h
            exact absurd h (by simp)

/-- Declared names still outside the DFS stack. -/
def countOut (D vis : List String) : Nat :=
  (D.filter (fun x => x ∉ vis)).length

theorem countOut_cons (name : String) (vis : List String) :
    ∀ D : List String, name ∈ D → D.Nodup → name ∉ vis →
      countOut D (name :: vis) + 1 = countOut D vis := by
  intro D
  induction D with
  | nil => intro hD; exact absurd hD (List.not_mem_nil _)
  | cons y rest ih =>
    intro hD hnd hnv
    obtain ⟨hym, hndr⟩ := List.nodup_cons.mp hnd
    unfold countOut
    by_cases hy : y = name
    · subst hy
      rw [List.filter_cons, List.filter_cons]
      rw [show decide (y ∉ y :: vis) = false by simp]
      rw [show decide (y ∉ vis) = true by simpa using hnv]
      rw [if_neg Bool.false_ne_true, if_pos rfl]
      have hcongr : rest.filter (fun x => x ∉ y :: vis) =
          rest.filter (fun x => x ∉ vis) := by
        apply List.filter_congr
        intro a ha
        have hay : ¬ a = y := fun h2 => hym (h2 ▸ ha)
        simp [List.mem_cons, hay]
      rw [hcongr, List.length_cons]
    · have hnr : name ∈ rest := by
        rcases List.mem_cons.mp hD with h2 | h2
        · exact absurd h2.symm hy
        · exact h2
      rw [List.filter_cons, List.filter_cons]
      by_cases hyv : y ∈ vis
      · rw [show decide (y ∉ name :: vis) = false by simp [hyv]]
        rw [show decide (y ∉ vis) = false by simp [hyv]]
        rw [if_neg Bool.false_ne_true, if_neg Bool.false_ne_true]
        have := ih hnr hndr hnv
        unfold countOut at this
        exact this
      · rw [show decide (y ∉ name :: vis) = true by simp [hy, hyv]]
        rw [show decide (y ∉ vis) = true by simp [hyv]]
        rw [if_pos rfl, if_pos rfl]
        simp only [List.length_cons]
        have := ih hnr hndr hnv
        unfold countOut at this
        omega

theorem dfsFold_error_cycle (f : DfsSt → String → Except VError DfsSt)
    (C : DfsSt → Prop)
    (hC : ∀ st d st', f st d = .ok st' → C st → C st')
    (hf : ∀ st d e, C st → f st d = .error e → ∃ n, e = .cycle n) :
    ∀ (ds : List String) (st : DfsSt) (e : VError), C st →
      dfsFold f st ds = .error e → ∃ n, e = .cycle n := by
  intro ds
  induction ds with
  | nil =>
    intro st e _ h
    unfold dfsFold at h
    exact absurd h (by simp)
  | cons d rest ih =>
    intro st e hCst h
    unfold dfsFold at h
    rcases h1 : f st d with e' | st1 <;> rw [h1] at h
    · cases h
      exact hf st d _ hCst h1
    · exact ih st1 e (hC st d st1 h1 hCst) h

/-- With enough fuel relative to the declared names outside the stack,
any error `dfs` returns is a cycle report, never fuel exhaustion. -/
theorem dfs_error_cycle (g : String → List String) (D : List String)
    (hD : ∀ x, x ∉ D → g x = []) (hnd : D.Nodup) :
    ∀ (fuel : Nat) (st : DfsSt) (name : String) (e : VError),
      countOut D st.visiting + 1 ≤ fuel →
      dfs g fuel st name = .error e → ∃ n, e = .cycle n := by
  intro fuel
  induction fuel with
  | zero =>
    intro st name e hle
    exact absurd hle (Nat.not_succ_le_zero _)
  | succ fuel ih =>
    intro st name e hle h
    unfold dfs at h
    by_cases h1 : name ∈ st.visiting
    · rw [if_pos h1] at h
      cases h
      exact ⟨name, rfl⟩
    · rw [if_neg h1] at h
      by_cases h2 : name ∈ st.visited
      · rw [if_pos h2] at h
        exact absurd h (by simp)
      · rw [if_neg h2] at h
        by_cases hnD : name ∈ D
        · rcases hfold : dfsFold (dfs g fuel)
              { st with visiting := name :: st.visiting } (g name) with e' | st2 <;>
            rw [hfold] at h
          · cases h
            have hcount := countOut_cons name st.visiting D hnD hnd h1
            have hC1 : countOut D (name :: st.visiting) + 1 ≤ fuel := by omega
            exact dfsFold_error_cycle (dfs g fuel)
              (fun st'' => countOut D st''.visiting + 1 ≤ fuel)
              (fun st'' d st3 hok hC => by
                show countOut D st3.visiting + 1 ≤ fuel
                rw [dfs_ok_visiting g fuel st'' d st3 hok]
                exact hC)
              (fun st'' d e2 hC herr => ih st'' d e2 hC herr)
              (g name) _ e hC1 hfold
          · exact absurd h (by simp)
        · rw [hD name hnD] at h
          simp [dfsFold] at h

theorem transGen_first {α : Type} {r : α → α → Prop} {a c : α}
    (h : Relation.TransGen r a c) : ∃ b, r a b := by
  induction h with
  | single h => exact ⟨_, h⟩
  | tail _ _ ih => exact ih

theorem validate_buildIndex_error (cfg : InfrastructureConfig) (e : VError)
    (hne : ¬ cfg.workspaces.length = 0)
    (hbi : buildIndex cfg.workspaces [] = .error e) :
    ValidateInfrastructureConfig cfg = .error e := by
  unfold ValidateInfrastructureConfig
  rw [if_neg hne, hbi]

theorem validate_dfs_error (cfg : InfrastructureConfig)
    (idx : List (String × WorkspaceConfig)) (e : VError)
    (hne : ¬ cfg.workspaces.length = 0)
    (hbi : buildIndex cfg.workspaces [] = .ok idx)
    (hdfs : dfsList (depsOf idx) (cfg.workspaces.length + 1) ⟨[], []⟩
      (cfg.workspaces.map WorkspaceConfig.name) = .error e) :
    ValidateInfrastructureConfig cfg = .error e := by
  unfold ValidateInfrastructureConfig
  rw [if_neg hne, hbi]
  simp only [hdfs]

/-- Claim C6: a configuration whose `dependsOn` relation contains a
reachable cycle (self-edges included) is rejected: validation returns
an error; when the structural pass succeeds the error is the DFS's
cycle report; and `ParentWorkflow` returns the validation error without
launching any executor. -/
theorem config_cycle_rejected (rawConfig : InfrastructureConfig)
    (hcyc : HasDependencyCycle rawConfig) :
    (∃ e, ValidateInfrastructureConfig rawConfig = .error e) ∧
    ((∃ idx, buildIndex rawConfig.workspaces [] = .ok idx) →
      ∃ n, ValidateInfrastructureConfig rawConfig = .error (.cycle n)) ∧
    (∀ (cwd runID : String) (signalOk : String → Bool)
        (schedule : List WorkspaceFinishedSig)
        (resolveRoot : String → Except String Unit),
      ∃ e, ParentWorkflowModel cwd runID signalOk schedule resolveRoot rawConfig =
        { outcome := .returns (.error (.config e)), launches := [], final := {} }) := by
  have hne : ¬ rawConfig.workspaces.length = 0 := by
    obtain ⟨n, htg⟩ := hcyc
    obtain ⟨b, hb⟩ := transGen_first htg
    obtain ⟨ws, hws, -, -⟩ := hb
    intro h0
    rw [List.length_eq_zero.mp h0] at hws
    exact List.not_mem_nil ws hws
  have hmain : ∀ idx, buildIndex rawConfig.workspaces [] = .ok idx →
      ∃ n, dfsList (depsOf idx) (rawConfig.workspaces.length + 1) ⟨[], []⟩
        (rawConfig.workspaces.map WorkspaceConfig.name) = .error (.cycle n) := by
    intro idx hbi
    obtain ⟨-, hfind, hkeys, hnodup, -⟩ :=
      buildIndex_spec rawConfig.workspaces [] idx hbi
    have hDout : ∀ x, x ∉ rawConfig.workspaces.map WorkspaceConfig.name →
        depsOf idx x = [] := by
      intro x hx
      rcases hread : findKey idx x with - | ws
      · simp [depsOf, hread]
      · have hs : (findKey idx x).isSome := by rw [hread]; rfl
        rcases hkeys x hs with habs | hmem
        · exact absurd habs (by simp [findKey])
        · exact absurd hmem hx
    obtain ⟨n, htg⟩ := hcyc
    have hlift : Relation.TransGen (fun a b => b ∈ depsOf idx a) n n := by
      refine Relation.TransGen.mono ?_ htg
      intro a b hab
      obtain ⟨ws, hws, hname, hdep⟩ := hab
      have hf := hfind ws hws
      rw [hname] at hf
      show b ∈ depsOf idx a
      unfold depsOf
      rw [hf]
      simpa using hdep
    have hgn : depsOf idx n ≠ [] := by
      obtain ⟨b, hb⟩ := transGen_first hlift
      intro h0
      rw [h0] at hb
      exact List.not_mem_nil b hb
    have hnD : n ∈ rawConfig.workspaces.map WorkspaceConfig.name := by
      by_contra hx
      exact hgn (hDout n hx)
    rcases hdfs : dfsList (depsOf idx) (rawConfig.workspaces.length + 1) ⟨[], []⟩
        (rawConfig.workspaces.map WorkspaceConfig.name) with e | st'
    · have hcount : countOut (rawConfig.workspaces.map WorkspaceConfig.name)
          (⟨[], []⟩ : DfsSt).visiting + 1 ≤ rawConfig.workspaces.length + 1 := by
        unfold countOut
        have hfs : (rawConfig.workspaces.map WorkspaceConfig.name).filter
            (fun x => x ∉ ([] : List String)) =
            rawConfig.workspaces.map WorkspaceConfig.name :=
          List.filter_eq_self.mpr (fun a _ => by simp)
        rw [hfs, List.length_map]
      unfold dfsList at hdfs
      obtain ⟨n', hn'⟩ := dfsFold_error_cycle
        (dfs (depsOf idx) (rawConfig.workspaces.length + 1))
        (fun st => countOut (rawConfig.workspaces.map WorkspaceConfig.name)
          st.visiting + 1 ≤ rawConfig.workspaces.length + 1)
        (fun st d st' hok hC => by
          show countOut _ st'.visiting + 1 ≤ _
          rw [dfs_ok_visiting (depsOf idx) _ st d st' hok]
          exact hC)
        (fun st d e2 hC herr =>
          dfs_error_cycle (depsOf idx)
            (rawConfig.workspaces.map WorkspaceConfig.name) hDout hnodup
            (rawConfig.workspaces.length + 1) st d e2 hC herr)
        (rawConfig.workspaces.map WorkspaceConfig.name) ⟨[], []⟩ e hcount hdfs
      exact ⟨n', by rw [hn']⟩
    · exfalso
      have hinv0 : DInv (depsOf idx) ⟨[], []⟩ := ⟨trivial, List.nodup_nil, by simp⟩
      unfold dfsList at hdfs
      obtain ⟨-, hinv', hall⟩ := dfsFold_ok_spec (depsOf idx)
        (dfs (depsOf idx) (rawConfig.workspaces.length + 1))
        (dfs_ok_visiting (depsOf idx) _)
        (fun st d st' hok hi =>
          dfs_ok_spec (depsOf idx) (rawConfig.workspaces.length + 1) st d st' hok hi)
        (rawConfig.workspaces.map WorkspaceConfig.name) ⟨[], []⟩ st' hdfs hinv0
      exact topoOk_no_cycle (depsOf idx) st'.visited hinv'.1 hinv'.2.1 n
        (hall n hnD) hlift
  have herr : ∃ e, ValidateInfrastructureConfig rawConfig = .error e := by
    rcases hbi : buildIndex rawConfig.workspaces [] with e | idx
    · exact ⟨e, validate_buildIndex_error rawConfig e hne hbi⟩
    · obtain ⟨n, hdfs⟩ := hmain idx hbi
      exact ⟨.cycle n, validate_dfs_error rawConfig idx (.cycle n) hne hbi hdfs⟩
  refine ⟨herr, ?_, ?_⟩
  · rintro ⟨idx, hbi⟩
    obtain ⟨n, hdfs⟩ := hmain idx hbi
    exact ⟨n, validate_dfs_error rawConfig idx (.cycle n) hne hbi hdfs⟩
  · intro cwd runID signalOk schedule resolveRoot
    obtain ⟨e, hval⟩ := herr
    exact ⟨e, ParentWorkflowModel_error cwd runID signalOk schedule resolveRoot
      rawConfig e hval⟩

/-- The two-workspace cyclic configuration used as the C6 witness. -/
def cyclicConfig : InfrastructureConfig :=
  { workspaces := [
      { name := "a", dir := "/w/a", dependsOn := ["b"] },
      { name := "b", dir := "/w/b", dependsOn := ["a"] }] }

/-- Witness for C6 at a concrete cyclic config. -/
theorem config_cycle_rejected_witness :
    (∃ e, ValidateInfrastructureConfig cyclicConfig = .error e) ∧
    (∃ n, ValidateInfrastructureConfig cyclicConfig = .error (.cycle n)) := by
  have hcyc : HasDependencyCycle cyclicConfig := by
    refine ⟨"a", @Relation.TransGen.head String (cfgEdge cyclicConfig) "a" "b" "a"
      ?_ (Relation.TransGen.single ?_)⟩
    · exact ⟨{ name := "a", dir := "/w/a", dependsOn := ["b"] },
        by simp [cyclicConfig], rfl, by simp⟩
    · exact ⟨{ name := "b", dir := "/w/b", dependsOn := ["a"] },
        by simp [cyclicConfig], rfl, by simp⟩
  have h := config_cycle_rejected cyclicConfig hcyc
  exact ⟨h.1, h.2.1 ⟨_, rfl⟩⟩

/-! ### Depths and host choice (C7) -/

/-- The maximum memoized depth over a dependency list, starting from
-1 as in the source's running maximum. -/
def maxDepth (memo : List (String × Int)) (ds : List String) : Int :=
  ds.foldl (fun best d => max best (depthOf memo d)) (-1)

/-- What a correct memo table satisfies: every entry is 0 for
dependency-free names, and one more than the maximum of its
dependencies' entries otherwise (all of which are present). -/
def MemoSpec (g : String → List String) (memo : List (String × Int)) : Prop :=
  ∀ n v, findKey memo n = some v →
    (g n = [] → v = 0) ∧
    (g n ≠ [] → (∀ d ∈ g n, (findKey memo d).isSome) ∧
      v = maxDepth memo (g n) + 1)

theorem if_gt_eq_max (a b : Int) : (if b > a then b else a) = max a b := by
  rcases le_or_lt b a with h | h
  · rw [if_neg (not_lt.mpr h), max_eq_left h]
  · rw [if_pos h, max_eq_right h.le]

theorem findKey_insertKey_isSome {α : Type} (m : List (String × α))
    (k k' : String) (v : α) (h : (findKey (insertKey m k v) k').isSome) :
    k' = k ∨ (findKey m k').isSome := by
  by_cases hk : k' = k
  · exact Or.inl hk
  · rw [findKey_insertKey_ne m k k' v hk] at h
    exact Or.inr h

theorem depthOf_insertKey_ne (m : List (String × Int)) (k d : String) (v : Int)
    (h : d ≠ k) : depthOf (insertKey m k v) d = depthOf m d := by
  unfold depthOf
  rw [findKey_insertKey_ne m k d v h]

theorem maxDepthAux_insert_ne (m : List (String × Int)) (k : String) (v : Int) :
    ∀ (ds : List String) (best : Int), (∀ d ∈ ds, d ≠ k) →
      ds.foldl (fun b d => max b (depthOf (insertKey m k v) d)) best =
        ds.foldl (fun b d => max b (depthOf m d)) best := by
  intro ds
  induction ds with
  | nil => intro best _; rfl
  | cons d rest ih =>
    intro best h
    rw [List.foldl_cons, List.foldl_cons,
      depthOf_insertKey_ne m k d v (h d (List.mem_cons_self _ _))]
    exact ih _ (fun d' hd' => h d' (List.mem_cons_of_mem _ hd'))

theorem maxDepth_insert_ne (m : List (String × Int)) (k : String) (v : Int)
    (ds : List String) (h : ∀ d ∈ ds, d ≠ k) :
    maxDepth (insertKey m k v) ds = maxDepth m ds :=
  maxDepthAux_insert_ne m k v ds (-1) h

/-- A fresh insert consistent with the recurrence preserves the memo
invariant. -/
theorem memoSpec_insert (g : String → List String) (memo : List (String × Int))
    (k : String) (v : Int) (hspec : MemoSpec g memo)
    (hfresh : findKey memo k = none)
    (hk0 : g k = [] → v = 0)
    (hk1 : g k ≠ [] → (∀ d ∈ g k, (findKey memo d).isSome) ∧
      v = maxDepth memo (g k) + 1) :
    MemoSpec g (insertKey memo k v) := by
  have hne_of_some : ∀ d, (findKey memo d).isSome → d ≠ k := by
    intro d hd hdk
    rw [hdk, hfresh] at hd
    exact absurd hd (by simp)
  intro n w hfind
  by_cases hn : n = k
  · subst hn
    rw [findKey_insertKey_self] at hfind
    cases hfind
    refine ⟨hk0, fun hne => ?_⟩
    obtain ⟨hdeps, hval⟩ := hk1 hne
    refine ⟨fun d hd => ?_, ?_⟩
    · by_cases hdk : d = n
      · rw [hdk, findKey_insertKey_self]; rfl
      · rw [findKey_insertKey_ne memo n d v hdk]
        exact hdeps d hd
    · rw [maxDepth_insert_ne memo n v (g n) (fun d hd => hne_of_some d (hdeps d hd))]
      exact hval
  · rw [findKey_insertKey_ne memo k n v hn] at hfind
    obtain ⟨h0, h1⟩ := hspec n w hfind
    refine ⟨h0, fun hne => ?_⟩
    obtain ⟨hdeps, hval⟩ := h1 hne
    refine ⟨fun d hd => ?_, ?_⟩
    · have hdk : d ≠ k := hne_of_some d (hdeps d hd)
      rw [findKey_insertKey_ne memo k d v hdk]
      exact hdeps d hd
    · rw [maxDepth_insert_ne memo k v (g n) (fun d hd => hne_of_some d (hdeps d hd))]
      exact hval

/-- The dependency loop of `getDepth`: given a step with the
`getDepth` contract, the fold preserves the invariant, binds every
processed name, and computes the running maximum of their final memo
values. -/
theorem depthFold_spec (g : String → List String) (rank : String → Nat)
    (f : List (String × Int) → String → List (String × Int) × Int) :
    ∀ ds : List String,
      (∀ memo d, d ∈ ds → MemoSpec g memo →
        (MemoSpec g (f memo d).1 ∧
          (∀ k w, findKey memo k = some w → findKey (f memo d).1 k = some w) ∧
          findKey (f memo d).1 d = some (f memo d).2 ∧
          (∀ k, (findKey (f memo d).1 k).isSome →
            (findKey memo k).isSome ∨ rank k ≤ rank d))) →
      ∀ memo best, MemoSpec g memo →
        (MemoSpec g (depthFold f memo ds best).1 ∧
          (∀ k w, findKey memo k = some w →
            findKey (depthFold f memo ds best).1 k = some w) ∧
          (∀ d ∈ ds, (findKey (depthFold f memo ds best).1 d).isSome) ∧
          (depthFold f memo ds best).2 =
            ds.foldl (fun b d => max b (depthOf (depthFold f memo ds best).1 d)) best ∧
          (∀ k, (findKey (depthFold f memo ds best).1 k).isSome →
            (findKey memo k).isSome ∨ ∃ d ∈ ds, rank k ≤ rank d)) := by
  intro ds
  induction ds with
  | nil =>
    intro _ memo best hspec
    exact ⟨hspec, fun k w h => h, by simp, rfl, fun k h => Or.inl h⟩
  | cons d rest ih =>
    intro hf memo best hspec
    have hstep := hf memo d (List.mem_cons_self _ _) hspec
    obtain ⟨spec1, mono1, hfd, kb1⟩ := hstep
    have hfrest : ∀ memo' d', d' ∈ rest → MemoSpec g memo' →
        (MemoSpec g (f memo' d').1 ∧
          (∀ k w, findKey memo' k = some w → findKey (f memo' d').1 k = some w) ∧
          findKey (f memo' d').1 d' = some (f memo' d').2 ∧
          (∀ k, (findKey (f memo' d').1 k).isSome →
            (findKey memo' k).isSome ∨ rank k ≤ rank d')) :=
      fun memo' d' hd' => hf memo' d' (List.mem_cons_of_mem _ hd')
    have hrec := ih hfrest (f memo d).1
      (if (f memo d).2 > best then (f memo d).2 else best) spec1
    obtain ⟨specR, monoR, hbindR, hvalR, kbR⟩ := hrec
    have hunfold : depthFold f memo (d :: rest) best =
        depthFold f (f memo d).1 rest
          (if (f memo d).2 > best then (f memo d).2 else best) := rfl
    rw [hunfold]
    have hfindRd : findKey (depthFold f (f memo d).1 rest
        (if (f memo d).2 > best then (f memo d).2 else best)).1 d =
        some (f memo d).2 := monoR d (f memo d).2 hfd
    refine ⟨specR, ?_, ?_, ?_, ?_⟩
    · intro k w hk
      exact monoR k w (mono1 k w hk)
    · intro d' hd'
      rcases List.mem_cons.mp hd' with hd'' | hd''
      · subst hd''
        rw [hfindRd]
        rfl
      · exact hbindR d' hd''
    · rw [List.foldl_cons]
      have hdep : depthOf (depthFold f (f memo d).1 rest
          (if (f memo d).2 > best then (f memo d).2 else best)).1 d = (f memo d).2 := by
        unfold depthOf
        rw [hfindRd]
        rfl
      rw [hdep, ← if_gt_eq_max best (f memo d).2]
      exact hvalR
    · intro k hk
      rcases kbR k hk with hk' | hk'
      · rcases kb1 k hk' with hk'' | hk''
        · exact Or.inl hk''
        · exact Or.inr ⟨d, List.mem_cons_self _ _, hk''⟩
      · obtain ⟨d', hd', hr⟩ := hk'
        exact Or.inr ⟨d', List.mem_cons_of_mem _ hd', hr⟩

/-- The `getDepth` contract: with fuel above the name's rank, the
memoized computation preserves and extends a correct memo, binds the
name, and never adds entries above the name's rank. -/
theorem getDepth_spec (g : String → List String) (rank : String → Nat)
    (hrank : ∀ n d, d ∈ g n → rank d < rank n) :
    ∀ (fuel : Nat) (name : String) (memo : List (String × Int)),
      rank name + 1 ≤ fuel → MemoSpec g memo →
      (MemoSpec g (getDepth g fuel memo name).1 ∧
        (∀ k w, findKey memo k = some w →
          findKey (getDepth g fuel memo name).1 k = some w) ∧
        findKey (getDepth g fuel memo name).1 name =
          some (getDepth g fuel memo name).2 ∧
        (∀ k, (findKey (getDepth g fuel memo name).1 k).isSome →
          (findKey memo k).isSome ∨ rank k ≤ rank name)) := by
  intro fuel
  induction fuel with
  | zero =>
    intro name memo hle
    exact absurd hle (Nat.not_succ_le_zero _)
  | succ fuel ih =>
    intro name memo hle hspec
    show MemoSpec g (getDepth g (fuel + 1) memo name).1 ∧ _
    rcases hmem : findKey memo name with - | v
    · by_cases hg : g name = []
      · have hred : getDepth g (fuel + 1) memo name = (insertKey memo name 0, 0) := by
          unfold getDepth
          rw [hmem, if_pos hg]
        rw [hred]
        refine ⟨?_, ?_, ?_, ?_⟩
        · exact memoSpec_insert g memo name 0 hspec hmem (fun _ => rfl)
            (fun hne => absurd hg hne)
        · intro k w hk
          have hkname : k ≠ name := fun h => by
            rw [h, hmem] at hk
            exact absurd hk (by simp)
          rw [findKey_insertKey_ne memo name k 0 hkname]
          exact hk
        · exact findKey_insertKey_self memo name 0
        · intro k hk
          rcases findKey_insertKey_isSome memo name k 0 hk with hk' | hk'
          · exact Or.inr (hk' ▸ le_refl _)
          · exact Or.inl hk'
      · have hred : getDepth g (fuel + 1) memo name =
            (insertKey (depthFold (getDepth g fuel) memo (g name) (-1)).1 name
              ((depthFold (getDepth g fuel) memo (g name) (-1)).2 + 1),
              (depthFold (getDepth g fuel) memo (g name) (-1)).2 + 1) := by
          unfold getDepth
          rw [hmem, if_neg hg]
        have hfcontract : ∀ memo' d, d ∈ g name → MemoSpec g memo' →
            (MemoSpec g (getDepth g fuel memo' d).1 ∧
              (∀ k w, findKey memo' k = some w →
                findKey (getDepth g fuel memo' d).1 k = some w) ∧
              findKey (getDepth g fuel memo' d).1 d =
                some (getDepth g fuel memo' d).2 ∧
              (∀ k, (findKey (getDepth g fuel memo' d).1 k).isSome →
                (findKey memo' k).isSome ∨ rank k ≤ rank d)) := by
          intro memo' d hd hspec'
          have hdrank : rank d + 1 ≤ fuel := by
            have := hrank name d hd
            omega
          exact ih d memo' hdrank hspec'
        obtain ⟨specR, monoR, hbindR, hvalR, kbR⟩ :=
          depthFold_spec g rank (getDepth g fuel) (g name) hfcontract memo (-1) hspec
        have hfreshR : findKey (depthFold (getDepth g fuel) memo (g name) (-1)).1
            name = none := by
          rcases hx : findKey (depthFold (getDepth g fuel) memo (g name) (-1)).1
              name with - | w
          · rfl
          · exfalso
            have hs : (findKey (depthFold (getDepth g fuel) memo (g name) (-1)).1
                name).isSome := by rw [hx]; rfl
            rcases kbR name hs with hk' | hk'
            · rw [hmem] at hk'
              exact absurd hk' (by simp)
            · obtain ⟨d, hd, hr⟩ := hk'
              exact absurd hr (not_le.mpr (hrank name d hd))
        rw [hred]
        refine ⟨?_, ?_, ?_, ?_⟩
        · refine memoSpec_insert g _ name _ specR hfreshR (fun h0 => absurd h0 hg)
            (fun _ => ⟨hbindR, ?_⟩)
          rw [hvalR]
          rfl
        · intro k w hk
          have hkname : k ≠ name := fun h => by
            rw [h, hmem] at hk
            exact absurd hk (by simp)
          rw [findKey_insertKey_ne _ name k _ hkname]
          exact monoR k w hk
        · exact findKey_insertKey_self _ name _
        · intro k hk
          rcases findKey_insertKey_isSome _ name k _ hk with hk' | hk'
          · exact Or.inr (hk' ▸ le_refl _)
          · rcases kbR k hk' with hk'' | hk''
            · exact Or.inl hk''
            · obtain ⟨d, hd, hr⟩ := hk''
              exact Or.inr (hr.trans (hrank name d hd).le)
    · have hred : getDepth g (fuel + 1) memo name = (memo, v) := by
        unfold getDepth
        rw [hmem]
      rw [hred]
      exact ⟨hspec, fun k w h => h, hmem, fun k h => Or.inl h⟩

theorem buildNameIndex_mem :
    ∀ (l : List WorkspaceConfig) (acc : List (String × WorkspaceConfig))
      (n : String) (ws' : WorkspaceConfig),
      findKey (l.foldl (fun idx ws => insertKey idx ws.name ws) acc) n = some ws' →
      findKey acc n = some ws' ∨ (ws' ∈ l ∧ ws'.name = n) := by
  intro l
  induction l with
  | nil => intro acc n ws' h; exact Or.inl h
  | cons ws rest ih =>
    intro acc n ws' h
    rw [List.foldl_cons] at h
    rcases ih (insertKey acc ws.name ws) n ws' h with h' | h'
    · by_cases hn : n = ws.name
      · rw [hn, findKey_insertKey_self] at h'
        cases h'
        exact Or.inr ⟨List.mem_cons_self _ _, hn.symm⟩
      · rw [findKey_insertKey_ne acc ws.name n ws hn] at h'
        exact Or.inl h'
    · exact Or.inr ⟨List.mem_cons_of_mem _ h'.1, h'.2⟩

/-- The top-level fold of `CalculateDepths` produces a memo satisfying
the recurrence, with every processed workspace bound. -/
theorem calcFold_spec (g : String → List String) (rank : String → Nat)
    (hrank : ∀ n d, d ∈ g n → rank d < rank n) (fuel : Nat) :
    ∀ (l : List WorkspaceConfig) (memo : List (String × Int)),
      MemoSpec g memo → (∀ ws ∈ l, rank ws.name + 1 ≤ fuel) →
      (MemoSpec g (l.foldl (fun m ws => (getDepth g fuel m ws.name).1) memo) ∧
        (∀ k w, findKey memo k = some w →
          findKey (l.foldl (fun m ws => (getDepth g fuel m ws.name).1) memo) k = some w) ∧
        (∀ ws ∈ l,
          (findKey (l.foldl (fun m ws => (getDepth g fuel m ws.name).1) memo)
            ws.name).isSome)) := by
  intro l
  induction l with
  | nil => intro memo hspec _; exact ⟨hspec, fun k w h => h, by simp⟩
  | cons ws rest ih =>
    intro memo hspec hfuel
    obtain ⟨spec1, mono1, hbind1, -⟩ := getDepth_spec g rank hrank fuel ws.name memo
      (hfuel ws (List.mem_cons_self _ _)) hspec
    obtain ⟨specR, monoR, hbindR⟩ := ih (getDepth g fuel memo ws.name).1 spec1
      (fun w hw => hfuel w (List.mem_cons_of_mem _ hw))
    rw [List.foldl_cons]
    refine ⟨specR, fun k w h => monoR k w (mono1 k w h), ?_⟩
    intro w hw
    rcases List.mem_cons.mp hw with hw' | hw'
    · subst hw'
      rw [monoR w.name _ hbind1]
      rfl
    · exact hbindR w hw'

/-- The host-selection fold: its result carries its own depth, bounds
every processed depth, and is either the seed or the first strict
improvement in the list. -/
theorem pickFold_spec (depths : List (String × Int)) :
    ∀ (l : List String) (b : String) (r : String × Int),
      r = l.foldl (fun best dep =>
        if depthOf depths dep > best.2 then (dep, depthOf depths dep) else best)
        (b, depthOf depths b) →
      (r.2 = depthOf depths r.1 ∧
        depthOf depths b ≤ r.2 ∧
        (∀ d ∈ l, depthOf depths d ≤ r.2) ∧
        (r.1 = b ∨ r.1 ∈ l) ∧
        (r.1 = b ∨ ∃ pre post, l = pre ++ r.1 :: post ∧
          depthOf depths b < r.2 ∧
          ∀ d ∈ pre, depthOf depths d < r.2)) := by
  intro l
  induction l with
  | nil =>
    intro b r hr
    rw [List.foldl_nil] at hr
    subst hr
    exact ⟨rfl, le_refl _, by simp, Or.inl rfl, Or.inl rfl⟩
  | cons d rest ih =>
    intro b r hr
    rw [List.foldl_cons] at hr
    by_cases himp : depthOf depths d > depthOf depths b
    · rw [if_pos himp] at hr
      obtain ⟨h1, h2, h3, hm, h4⟩ := ih d r hr
      refine ⟨h1, le_of_lt (lt_of_lt_of_le himp h2), ?_, ?_, ?_⟩
      · intro d' hd'
        rcases List.mem_cons.mp hd' with hd'' | hd''
        · exact hd'' ▸ h2
        · exact h3 d' hd''
      · rcases hm with hm' | hm'
        · exact Or.inr (hm' ▸ List.mem_cons_self _ _)
        · exact Or.inr (List.mem_cons_of_mem _ hm')
      · rcases h4 with h4' | ⟨pre, post, hsplit, hlt, hpre⟩
        · exact Or.inr ⟨[], rest, by rw [h4']; rfl, lt_of_lt_of_le himp h2, by simp⟩
        · exact Or.inr ⟨d :: pre, post, by rw [hsplit]; rfl, lt_of_lt_of_le himp h2,
            fun d' hd' => by
              rcases List.mem_cons.mp hd' with hd'' | hd''
              · exact hd'' ▸ hlt
              · exact hpre d' hd''⟩
    · rw [if_neg himp] at hr
      obtain ⟨h1, h2, h3, hm, h4⟩ := ih b r hr
      refine ⟨h1, h2, ?_, ?_, ?_⟩
      · intro d' hd'
        rcases List.mem_cons.mp hd' with hd'' | hd''
        · exact hd'' ▸ le_trans (not_lt.mp himp) h2
        · exact h3 d' hd''
      · rcases hm with hm' | hm'
        · exact Or.inl hm'
        · exact Or.inr (List.mem_cons_of_mem _ hm')
      · rcases h4 with h4' | ⟨pre, post, hsplit, hlt, hpre⟩
        · exact Or.inl h4'
        · exact Or.inr ⟨d :: pre, post, by rw [hsplit]; rfl,
            hlt, fun d' hd' => by
              rcases List.mem_cons.mp hd' with hd'' | hd''
              · exact hd'' ▸ lt_of_le_of_lt (not_lt.mp himp) hlt
              · exact hpre d' hd''⟩

/-- `pickHost` in terms of its seed and list: it carries the maximal
depth and is the seed or the first strict improvement. -/
theorem pickHost_spec (depths : List (String × Int)) (d0 : String)
    (l : List String) :
    pickHost depths d0 l ∈ d0 :: l ∧
    depthOf depths d0 ≤ depthOf depths (pickHost depths d0 l) ∧
    (∀ d ∈ l, depthOf depths d ≤ depthOf depths (pickHost depths d0 l)) ∧
    (pickHost depths d0 l = d0 ∨
      ∃ pre post, l = pre ++ pickHost depths d0 l :: post ∧
        ∀ d ∈ pre, depthOf depths d < depthOf depths (pickHost depths d0 l)) := by
  obtain ⟨h1, h2, h3, hm, h4⟩ := pickFold_spec depths l d0
    (l.foldl (fun best dep =>
      if depthOf depths dep > best.2 then (dep, depthOf depths dep) else best)
      (d0, depthOf depths d0)) rfl
  rw [h1] at h2 h3 h4
  unfold pickHost
  refine ⟨?_, h2, h3, ?_⟩
  · rcases hm with he | hm'
    · rw [he]
      exact List.mem_cons_self _ _
    · exact List.mem_cons_of_mem _ hm'
  · rcases h4 with he | ⟨pre, post, hsplit, -, hpre⟩
    · exact Or.inl he
    · exact Or.inr ⟨pre, post, hsplit, hpre⟩

/-- The dispatch step of `startWorkspace` for a hostable workspace:
one hosted launch whose host is `pickHost` over the dependency list. -/
theorem startWorkspaceModel_hosted (runID : String) (signalOk : String → Bool)
    (depths : List (String × Int)) (seen : List String) (st : OrchState)
    (ws : WorkspaceConfig) (d0 : String) (rest : List String)
    (hdeps : (resolveExtraVars ws st.outputs).dependsOn = d0 :: rest)
    (hsig : signalOk (resolveExtraVars ws st.outputs).name = true) :
    (startWorkspaceModel runID signalOk depths seen st ws).launches =
      st.launches ++ [⟨resolveExtraVars ws st.outputs,
        .hosted (pickHost depths d0 (d0 :: rest)), seen⟩] := by
  revert hdeps hsig
  unfold startWorkspaceModel
  generalize resolveExtraVars ws st.outputs = w
  intro hdeps hsig
  simp [startWorkspaceDispatch, hdeps, hsig]

/-- Claim C7: for a non-root workspace started by the orchestrator,
the chosen host is the dependency with the greatest depth, ties broken
by the first such dependency in `dependsOn` order; and the depth table
satisfies the recurrence `depth(w) = 1 + max over deps of depth(d)`,
roots having depth 0. The rank hypotheses state acyclicity of the
declared dependency relation, which validation guarantees. -/
theorem host_is_deepest_dependency (runID : String) (signalOk : String → Bool)
    (seen : List String) (st : OrchState) (ws : WorkspaceConfig)
    (d0 : String) (rest : List String) (workspaces : List WorkspaceConfig)
    (rank : String → Nat)
    (hdeps : ws.dependsOn = d0 :: rest)
    (hsig : signalOk ws.name = true)
    (hrank : ∀ w ∈ workspaces, ∀ d ∈ w.dependsOn, rank d < rank w.name)
    (hbound : ∀ w ∈ workspaces, rank w.name + 1 ≤ workspaces.length + 1) :
    (∃ h, (startWorkspaceModel runID signalOk (CalculateDepths workspaces) seen
        st ws).launches =
        st.launches ++ [⟨resolveExtraVars ws st.outputs, .hosted h, seen⟩] ∧
      h ∈ ws.dependsOn ∧
      (∀ d ∈ ws.dependsOn, depthOf (CalculateDepths workspaces) d ≤
        depthOf (CalculateDepths workspaces) h) ∧
      ∃ pre post, ws.dependsOn = pre ++ h :: post ∧
        ∀ d ∈ pre, depthOf (CalculateDepths workspaces) d <
          depthOf (CalculateDepths workspaces) h) ∧
    (∀ w ∈ workspaces,
      (depsOf (buildNameIndex workspaces) w.name = [] →
        findKey (CalculateDepths workspaces) w.name = some 0) ∧
      (depsOf (buildNameIndex workspaces) w.name ≠ [] →
        findKey (CalculateDepths workspaces) w.name =
          some (maxDepth (CalculateDepths workspaces)
            (depsOf (buildNameIndex workspaces) w.name) + 1) ∧
        ∀ d ∈ depsOf (buildNameIndex workspaces) w.name,
          (findKey (CalculateDepths workspaces) d).isSome)) := by
  have hrank' : ∀ n d, d ∈ depsOf (buildNameIndex workspaces) n → rank d < rank n := by
    intro n d hd
    unfold depsOf at hd
    rcases hfk : findKey (buildNameIndex workspaces) n with - | ws'
    · rw [hfk] at hd
      simp at hd
    · rw [hfk] at hd
      simp at hd
      rcases buildNameIndex_mem workspaces [] n ws' hfk with habs | ⟨hmem, hname⟩
      · exact absurd habs (by simp [findKey])
      · have := hrank ws' hmem d hd
        rwa [hname] at this
  constructor
  · -- host selection
    have hname : (resolveExtraVars ws st.outputs).name = ws.name := by
      unfold resolveExtraVars
      split <;> rfl
    have hdeps' : (resolveExtraVars ws st.outputs).dependsOn = d0 :: rest := by
      rw [resolveExtraVars_dependsOn, hdeps]
    have hL := startWorkspaceModel_hosted runID signalOk (CalculateDepths workspaces)
      seen st ws d0 rest hdeps' (by rw [hname]; exact hsig)
    obtain ⟨hmem, hle0, hle, hdec⟩ :=
      pickHost_spec (CalculateDepths workspaces) d0 (d0 :: rest)
    refine ⟨pickHost (CalculateDepths workspaces) d0 (d0 :: rest), hL, ?_, ?_, ?_⟩
    · rw [hdeps]
      rcases List.mem_cons.mp hmem with he | hm
      · rw [he]
        exact List.mem_cons_self _ _
      · exact hm
    · intro d hd
      rw [hdeps] at hd
      exact hle d hd
    · rcases hdec with he | ⟨pre, post, hsplit, hpre⟩
      · refine ⟨[], rest, ?_, by simp⟩
        rw [hdeps, he]
        rfl
      · exact ⟨pre, post, by rw [hdeps]; exact hsplit, hpre⟩
  · -- depth recurrence
    have hEq : CalculateDepths workspaces =
        workspaces.foldl (fun m ws =>
          (getDepth (depsOf (buildNameIndex workspaces))
            (workspaces.length + 1) m ws.name).1) [] := rfl
    have hspec0 : MemoSpec (depsOf (buildNameIndex workspaces)) [] := by
      intro n v h
      exact absurd h (by simp [findKey])
    obtain ⟨hspec, -, hbind⟩ := calcFold_spec (depsOf (buildNameIndex workspaces))
      rank hrank' (workspaces.length + 1) workspaces [] hspec0 hbound
    intro w hw
    have hbw := hbind w hw
    rcases hfk : findKey (workspaces.foldl (fun m ws =>
        (getDepth (depsOf (buildNameIndex workspaces))
          (workspaces.length + 1) m ws.name).1) []) w.name with - | v
    · rw [hfk] at hbw
      exact absurd hbw (by simp)
    · obtain ⟨hz, hs⟩ := hspec w.name v hfk
      constructor
      · intro hg
        rw [hEq, hfk, hz hg]
      · intro hg
        obtain ⟨hdeps2, hval⟩ := hs hg
        constructor
        · rw [hEq, hfk, hval]
        · intro d hd
          rw [hEq]
          exact hdeps2 d hd

/-- The diamond configuration used as the C7 witness:
`a → b, a → c, b → d, c → d`. -/
def diamondWorkspaces : List WorkspaceConfig :=
  [{ name := "a", dir := "/w/a" },
   { name := "b", dir := "/w/b", dependsOn := ["a"] },
   { name := "c", dir := "/w/c", dependsOn := ["a"] },
   { name := "d", dir := "/w/d", dependsOn := ["b", "c"] }]

/-- The workspace being dispatched in the C7 witness. -/
def diamondTarget : WorkspaceConfig :=
  { name := "d", dir := "/w/d", dependsOn := ["b", "c"] }

/-- A rank function witnessing acyclicity of the diamond. -/
def diamondRank : String → Nat :=
  fun n => if n = "b" then 1 else if n = "c" then 1 else if n = "d" then 2 else 0

/-- Witness for C7 at the diamond config. -/
theorem host_is_deepest_dependency_witness :
    (∃ h, (startWorkspaceModel "run" (fun _ => true)
        (CalculateDepths diamondWorkspaces) ["a", "b", "c"] {} diamondTarget).launches =
        ({} : OrchState).launches ++
          [⟨resolveExtraVars diamondTarget ({} : OrchState).outputs, .hosted h,
            ["a", "b", "c"]⟩] ∧
      h ∈ diamondTarget.dependsOn ∧
      (∀ d ∈ diamondTarget.dependsOn,
        depthOf (CalculateDepths diamondWorkspaces) d ≤
          depthOf (CalculateDepths diamondWorkspaces) h) ∧
      ∃ pre post, diamondTarget.dependsOn = pre ++ h :: post ∧
        ∀ d ∈ pre, depthOf (CalculateDepths diamondWorkspaces) d <
          depthOf (CalculateDepths diamondWorkspaces) h) ∧
    (∀ w ∈ diamondWorkspaces,
      (depsOf (buildNameIndex diamondWorkspaces) w.name = [] →
        findKey (CalculateDepths diamondWorkspaces) w.name = some 0) ∧
      (depsOf (buildNameIndex diamondWorkspaces) w.name ≠ [] →
        findKey (CalculateDepths diamondWorkspaces) w.name =
          some (maxDepth (CalculateDepths diamondWorkspaces)
            (depsOf (buildNameIndex diamondWorkspaces) w.name) + 1) ∧
        ∀ d ∈ depsOf (buildNameIndex diamondWorkspaces) w.name,
          (findKey (CalculateDepths diamondWorkspaces) d).isSome)) :=
  host_is_deepest_dependency "run" (fun _ => true) ["a", "b", "c"] {}
    diamondTarget "b" ["c"] diamondWorkspaces diamondRank rfl rfl
    (by decide) (by decide)

end IaC
